import Mathlib

/-!
Task scheduling algorithms (`task.cpp`)

A shallow embedding of the three algorithms of `task.cpp`:

* `knapsackSchedule` : the 0/1 knapsack dynamic program and its backward walk,
* `greedySchedule`   : the ratio-greedy selector,
* `topologicalSort`  : Kahn's algorithm with the length test for cycles.

Conventions of the embedding.

* C++ `int` is `Int`, and the values of `int` are the integers of 32 bits
  (`IsInt32`).  The sums of priorities and of durations (line 48, lines 72-75)
  are computed as the machine does, reduced to 32 bits in two's complement
  (`addInt`).  The differences `t - duration` of lines 48 and 56 are only
  evaluated with `duration ≤ t`; for `0 ≤ duration` they lie between `0` and
  `t` and are exact.
* `vector<T>` is `List T`; `push_back` appends at the end.
* A read of a `vector` outside its bounds is undefined behaviour; the
  knapsack functions return `none` when such a read would happen.
* `unordered_map<int, V>` accessed with `operator[]` is a total function
  with the value-initialised default (`0`, or the empty vector) together with
  the list of keys that were inserted.
* Two library behaviours that the C++ standard leaves open are parameters of
  the embedding: the arrangement `std::sort` produces (`sortByRatio`) and the
  order in which an `unordered_map` is traversed (`iterationOrder`).  The
  theorems hold for every value of these parameters that is a permutation of
  its argument.
* The `while` loop of `topologicalSort` takes a bound `fuel`; the theorems show
  that every bound above the number of tasks is enough.
* The comparator handed to `std::sort` divides in `double`; `doubleQuot` and
  `ratioGreater` describe it (IEEE 754 binary64, round to nearest, ties to
  even).  They are used only where a property depends on the order the sort
  produces; there the sort is assumed to leave its result sorted for the
  comparator.
-/

namespace TaskScheduler

/-- The `Task` record of `task.cpp` (lines 10-15). -/
structure Task where
  id : Int
  duration : Int
  priority : Int
  dependencies : List Int
deriving DecidableEq, Repr

/-! ## Arithmetic of `int` -/

/-- The values of the C++ type `int`: 32 bits, two's complement. -/
def IsInt32 (x : Int) : Prop := -2147483648 ≤ x ∧ x < 2147483648

instance isInt32Decidable (x : Int) : Decidable (IsInt32 x) :=
  inferInstanceAs (Decidable (-2147483648 ≤ x ∧ x < 2147483648))

/-- The `int` that has the low 32 bits of `x`. -/
def wrap32 (x : Int) : Int := (x + 2147483648) % 4294967296 - 2147483648

/-- The sum `a + b` of two `int`s as the machine computes it: the exact sum
reduced to 32 bits, so a sum above `2147483647` comes out negative.  The
operands in the source are fields of tasks and earlier sums, which are values
of `int`; for an operand of the embedding that is no value of `int` the sum is
left exact. -/
def addInt (a b : Int) : Int :=
  if IsInt32 a ∧ IsInt32 b then wrap32 (a + b) else a + b

/-! ## knapsackSchedule (lines 39-61) -/

/-- Bounds-checked read `row[t]` of a `vector<int>` with an `int` index. -/
def readRow (row : List Int) (t : Int) : Option Int :=
  if 0 ≤ t then row[t.toNat]? else none

/-- Bounds-checked read `dp[i][t]` of the table. -/
def readCell (dp : List (List Int)) (i : Nat) (t : Int) : Option Int :=
  match dp[i]? with
  | some row => readRow row t
  | none => none

/-- The value stored in `dp[i][t]` by the body of the inner loop (lines 45-48),
where `task` is `tasks[i - 1]` and `prev` is the row `dp[i - 1]`. -/
def cellValue (task : Task) (prev : List Int) (t : Int) : Option Int :=
  if task.duration > t then readRow prev t
  else
    match readRow prev t, readRow prev (t - task.duration) with
    | some a, some b => some (max a (addInt task.priority b))
    | _, _ => none

/-- The inner loop `for (t = 0; t <= maxTime; ++t)` run over the list of the
columns still to be written; the result is the rest of the row `dp[i]`. -/
def fillCells (task : Task) (prev : List Int) : List Nat → Option (List Int)
  | [] => some []
  | t :: ts =>
    match cellValue task prev (t : Int), fillCells task prev ts with
    | some v, some vs => some (v :: vs)
    | _, _ => none

/-- Row `dp[i]` computed from row `dp[i - 1]`: the columns are
`0, 1, ..., maxTime`, as many as the row was allocated with (line 41). -/
def fillRow (task : Task) (prev : List Int) (maxTime : Int) : Option (List Int) :=
  fillCells task prev (List.range (maxTime + 1).toNat)

/-- The outer loop (lines 43-50) over the tasks still to be treated, `prev`
being the last completed row; the result is the list of the rows below it. -/
def fillRows (maxTime : Int) : List Task → List Int → Option (List (List Int))
  | [], _ => some []
  | task :: rest, prev =>
    match fillRow task prev maxTime with
    | some row =>
      match fillRows maxTime rest row with
      | some rows => some (row :: rows)
      | none => none
    | none => none

/-- The filled table `dp`: row `0` is the zero row of `maxTime + 1` cells
(line 41), rows `1..n` come from the loop of lines 43-50. -/
def dpTable (tasks : List Task) (maxTime : Int) : Option (List (List Int)) :=
  match fillRows maxTime tasks (List.replicate (maxTime + 1).toNat 0) with
  | some rows => some (List.replicate (maxTime + 1).toNat 0 :: rows)
  | none => none

/-- The backward walk (lines 52-58): `i` runs from `n` down to `1` while
`t >= 0`; the walk appends `tasks[i - 1]` to `selectedTasks` when
`dp[i][t] != dp[i - 1][t]`. -/
def walkBack (tasks : List Task) (dp : List (List Int)) :
    Nat → Int → List Task → Option (List Task)
  | 0, _, selectedTasks => some selectedTasks
  | i + 1, t, selectedTasks =>
    if 0 ≤ t then
      match readCell dp (i + 1) t, readCell dp i t, tasks[i]? with
      | some a, some b, some task =>
        if a ≠ b then walkBack tasks dp i (t - task.duration) (selectedTasks ++ [task])
        else walkBack tasks dp i t selectedTasks
      | _, _, _ => none
    else some selectedTasks

/-- The function `knapsackSchedule(tasks, maxTime, selectedTasks)`: the returned
`int` and the final contents of the output parameter `selectedTasks`;
`none` when a vector would be read out of its bounds. -/
def knapsackSchedule (tasks : List Task) (maxTime : Int) (selectedTasks : List Task) :
    Option (Int × List Task) :=
  match dpTable tasks maxTime with
  | none => none
  | some dp =>
    match walkBack tasks dp tasks.length maxTime selectedTasks,
          readCell dp tasks.length maxTime with
    | some sel, some v => some (v, sel)
    | _, _ => none

/-- Sum of the durations of a list of tasks. -/
def totalDuration (ts : List Task) : Int := (ts.map Task.duration).sum

/-- Sum of the priorities of a list of tasks. -/
def totalPriority (ts : List Task) : Int := (ts.map Task.priority).sum

/-! ## greedySchedule (lines 63-79) -/

/-- The scan of lines 70-77 over the sorted tasks still to be looked at, with
the running `usedTime`, `totalPriority` and `selectedTasks`. -/
def greedyLoop (maxTime : Int) : List Task → Int → Int → List Task → Int × List Task
  | [], _, totalPriority, selectedTasks => (totalPriority, selectedTasks)
  | task :: rest, usedTime, totalPriority, selectedTasks =>
    if addInt usedTime task.duration ≤ maxTime then
      greedyLoop maxTime rest (addInt usedTime task.duration) (addInt totalPriority task.priority)
        (selectedTasks ++ [task])
    else greedyLoop maxTime rest usedTime totalPriority selectedTasks

/-- The function `greedySchedule(tasks, maxTime, selectedTasks)`: the returned
`int` and the final `selectedTasks`.  The call of `std::sort` with the
comparator on `double` quotients (lines 64-68) is the parameter `sortByRatio`:
the scan reads whatever arrangement of the working copy the sort leaves. -/
def greedySchedule (sortByRatio : List Task → List Task) (tasks : List Task) (maxTime : Int)
    (selectedTasks : List Task) : Int × List Task :=
  greedyLoop maxTime (sortByRatio tasks) 0 0 selectedTasks

/-- The order `a` before `b` of the exact quotients `priority / duration`,
written with cross products (for positive durations). -/
def ratioGe (a b : Task) : Prop := b.priority * a.duration ≤ a.priority * b.duration

instance ratioGeDecidable : DecidableRel ratioGe :=
  fun a b => inferInstanceAs (Decidable (b.priority * a.duration ≤ a.priority * b.duration))

/-- A concrete sorter (insertion sort by descending exact quotient), used as an
executable instance of the sorter parameter of `greedySchedule`. -/
def exactRatioSort (ts : List Task) : List Task := ts.insertionSort ratioGe

/-! ### The comparator of the sort (lines 64-68)

The comparator divides in `double`.  For `int` operands `0 ≤ p` and `0 < d` the
conversions to `double` are exact and the quotient is the rational `p / d`
rounded to the nearest number with a 53-bit significand, ties to even
(IEEE 754 binary64; no overflow or underflow occurs for 32-bit operands).  A
`double` is written as a pair `(m, s)` that stands for `m / 2 ^ s`. -/

/-- The least shift `s`, searched upwards from the given `s`, with
`d * 2 ^ 52 ≤ p * 2 ^ s`: then `p * 2 ^ s / d` lies in `[2 ^ 52, 2 ^ 53)`. -/
def findShift (p d : Nat) : Nat → Nat → Nat
  | 0, s => s
  | fuel + 1, s => if d * 2 ^ 52 ≤ p * 2 ^ s then s else findShift p d fuel (s + 1)

/-- The `double` value of `(double)p / d` (lines 65-66) for `0 ≤ p`, `0 < d`,
as a pair `(m, s)` standing for `m / 2 ^ s`: the integer `m` is
`p * 2 ^ s / d` rounded to the nearest integer, ties to even. -/
def doubleQuot (p d : Int) : Nat × Nat :=
  if p.toNat = 0 then (0, 0)
  else
    (if 2 * (p.toNat * 2 ^ findShift p.toNat d.toNat 128 0 % d.toNat) < d.toNat then
        p.toNat * 2 ^ findShift p.toNat d.toNat 128 0 / d.toNat
      else if d.toNat < 2 * (p.toNat * 2 ^ findShift p.toNat d.toNat 128 0 % d.toNat) then
        p.toNat * 2 ^ findShift p.toNat d.toNat 128 0 / d.toNat + 1
      else if p.toNat * 2 ^ findShift p.toNat d.toNat 128 0 / d.toNat % 2 = 0 then
        p.toNat * 2 ^ findShift p.toNat d.toNat 128 0 / d.toNat
      else p.toNat * 2 ^ findShift p.toNat d.toNat 128 0 / d.toNat + 1,
     findShift p.toNat d.toNat 128 0)

/-- The comparison `x > y` of two doubles `x.1 / 2 ^ x.2` and `y.1 / 2 ^ y.2`. -/
def doubleGt (x y : Nat × Nat) : Prop := y.1 * 2 ^ x.2 < x.1 * 2 ^ y.2

/-- The comparator of lines 64-68: `r1 > r2` for the double quotients of `a`
and `b`. -/
def ratioGreater (a b : Task) : Prop :=
  doubleGt (doubleQuot a.priority a.duration) (doubleQuot b.priority b.duration)

instance ratioGreaterDecidable : DecidableRel ratioGreater :=
  fun a b => inferInstanceAs (Decidable
    ((doubleQuot b.priority b.duration).1 * 2 ^ (doubleQuot a.priority a.duration).2
      < (doubleQuot a.priority a.duration).1 * 2 ^ (doubleQuot b.priority b.duration).2))

/-- What `std::sort` guarantees of its result for this comparator: no element
compares greater than an element that stands before it. -/
def SortedByRatio (l : List Task) : Prop := l.Pairwise (fun a b => ¬ ratioGreater b a)

instance sortedByRatioDecidable (l : List Task) : Decidable (SortedByRatio l) :=
  inferInstanceAs (Decidable (l.Pairwise (fun a b => ¬ ratioGreater b a)))

/-- Insertion sort with the comparator of lines 64-68: an element moves in
front of another only when the comparator says it is greater.  On a range of
two elements this is what `std::sort` does (one call `comp(second, first)`, a
swap when it is true). -/
def doubleRatioSort (ts : List Task) : List Task :=
  ts.insertionSort (fun a b => ¬ ratioGreater b a)

/-! ## topologicalSort (lines 81-125) -/

/-- An `unordered_map<int, int>`: the keys inserted so far and the value of
every key, `0` (the value-initialised `int`) where none was stored. -/
structure DegreeMap where
  keys : List Int
  val : Int → Int

/-- The empty map. -/
def DegreeMap.empty : DegreeMap := ⟨[], fun _ => 0⟩

/-- The assignment `m[k] = v`: the key is inserted when it is new. -/
def DegreeMap.assign (m : DegreeMap) (k : Int) (v : Int) : DegreeMap :=
  ⟨if k ∈ m.keys then m.keys else m.keys ++ [k], Function.update m.val k v⟩

/-- Lines 86-88: `inDegree[task.id] = 0` for every task. -/
def initInDegree (tasks : List Task) : DegreeMap :=
  tasks.foldl (fun m task => m.assign task.id 0) DegreeMap.empty

/-- Lines 92-95 for one task: every `dep` of the task appends `task.id` to
`adj[dep]` and increments `inDegree[task.id]`. -/
def addEdges (task : Task) (g : (Int → List Int) × DegreeMap) : (Int → List Int) × DegreeMap :=
  task.dependencies.foldl
    (fun g dep =>
      (Function.update g.1 dep (g.1 dep ++ [task.id]),
       g.2.assign task.id (g.2.val task.id + 1)))
    g

/-- Lines 82-96: the adjacency map `adj` (dependency to dependents) and the map
`inDegree`. -/
def buildGraph (tasks : List Task) : (Int → List Int) × DegreeMap :=
  tasks.foldl (fun g task => addEdges task g) (fun _ => [], initInDegree tasks)

/-- Lines 111-116: the loop over `adj[curr]`, on the values of `inDegree` and
the queue. -/
def visitNeighbors : List Int → (Int → Int) × List Int → (Int → Int) × List Int
  | [], s => s
  | neighbor :: rest, s =>
    visitNeighbors rest
      (Function.update s.1 neighbor (s.1 neighbor - 1),
       if s.1 neighbor - 1 = 0 then s.2 ++ [neighbor] else s.2)

/-- Lines 106-117: the `while (!q.empty())` loop, with a bound `fuel` on the
number of tests of the loop condition; `none` when the bound is reached.  The
keys of `inDegree` are not read after line 103, so the loop carries its values
only. -/
def kahnLoop (adj : Int → List Int) : Nat → (Int → Int) → List Int → List Int → Option (List Int)
  | 0, _, _, _ => none
  | _ + 1, _, [], order => some order
  | fuel + 1, inDegree, curr :: q, order =>
    kahnLoop adj fuel (visitNeighbors (adj curr) (inDegree, q)).1
      (visitNeighbors (adj curr) (inDegree, q)).2 (order ++ [curr])

/-- The function `topologicalSort(tasks)`.  The order in which the range-for of
line 99 visits the keys of the unordered map is the parameter
`iterationOrder` (applied to the list of the keys); `fuel` bounds the while
loop. `some []` is the empty vector returned at line 121. -/
def topologicalSort (iterationOrder : List Int → List Int) (fuel : Nat) (tasks : List Task) :
    Option (List Int) :=
  match kahnLoop (buildGraph tasks).1 fuel (buildGraph tasks).2.val
      ((iterationOrder (buildGraph tasks).2.keys).filter
        (fun k => decide ((buildGraph tasks).2.val k = 0))) [] with
  | none => none
  | some order => if order.length ≠ tasks.length then some [] else some order

/-! ## Notions used to state the properties -/

/-- The contents of the table as a function: the value the loops of lines
43-50 store for the tasks `ts` (listed last task first) and the time `t`, with
the sum of line 48 computed in `int`. -/
def bestValue : List Task → Int → Int
  | [], _ => 0
  | task :: rest, t =>
    if task.duration > t then bestValue rest t
    else max (bestValue rest t) (addInt task.priority (bestValue rest (t - task.duration)))

/-- Sum of the absolute values of the priorities of a list of tasks. -/
def totalAbsPriority (ts : List Task) : Int := (ts.map (fun x => |x.priority|)).sum

/-- The dependency edges `(d, t.id)` of a task list, one for every entry `d`
of `t.dependencies`, in input order. -/
def edges (tasks : List Task) : List (Int × Int) :=
  tasks.flatMap (fun t => t.dependencies.map (fun d => (d, t.id)))

/-- The relation `d → x`: some task with id `x` lists `d` as a dependency. -/
def DependsOn (tasks : List Task) (d x : Int) : Prop := (d, x) ∈ edges tasks

instance dependsOnDecidable (tasks : List Task) (d x : Int) : Decidable (DependsOn tasks d x) :=
  inferInstanceAs (Decidable ((d, x) ∈ edges tasks))

/-- The dependency edges contain a cycle. -/
def HasCycle (tasks : List Task) : Prop := ∃ x, Relation.TransGen (DependsOn tasks) x x

/-- The dependents of `d`: the targets of the edges that leave `d`, in input
order (the contents of `adj[d]` after line 96). -/
def adjList (tasks : List Task) (d : Int) : List Int :=
  ((edges tasks).filter (fun e => decide (e.1 = d))).map Prod.snd

/-- The number of dependency entries of the id `x` whose dependency is not in
`order` (the value of `inDegree[x]` once the ids of `order` are processed). -/
def pending (tasks : List Task) (order : List Int) (x : Int) : Nat :=
  (edges tasks).countP (fun e => decide (e.2 = x ∧ e.1 ∉ order))

/-- The invariant of the while loop of `topologicalSort`, for the values `deg`
of `inDegree`, the queue `q` and the output `order`: no id is twice in the
output and the queue; `inDegree[x]` counts the dependency entries of `x` not yet
in the output; the ids in the output or the queue are the task ids whose count
is `0`; and every dependency of an id in the output stands before it. -/
structure KahnInv (tasks : List Task) (deg : Int → Int) (q order : List Int) : Prop where
  nodup : (order ++ q).Nodup
  deg_eq : ∀ x, deg x = (pending tasks order x : Nat)
  ready : ∀ x, x ∈ order ++ q ↔ (x ∈ tasks.map Task.id ∧ deg x = 0)
  valid : ∀ x ∈ order, ∀ d, DependsOn tasks d x →
    d ∈ order ∧ List.indexOf d order < List.indexOf x order

/-- A row holds the values of `f` on the columns `0..maxTime`. -/
def RowIs (row : List Int) (f : Int → Int) (maxTime : Int) : Prop :=
  ∀ t, 0 ≤ t → t ≤ maxTime → readRow row t = some (f t)

/-- Three tasks with durations `2, 3, 4` and priorities `3, 4, 5`. -/
def exampleTasks : List Task :=
  [⟨1, 2, 3, []⟩, ⟨2, 3, 4, []⟩, ⟨3, 4, 5, []⟩]

/-- Three tasks: `2` depends on `1`, `3` depends on `1` and `2`. -/
def exampleDeps : List Task :=
  [⟨1, 2, 3, []⟩, ⟨2, 3, 4, [1]⟩, ⟨3, 4, 5, [1, 2]⟩]

/-- Two tasks that depend on each other. -/
def cycleTasks : List Task :=
  [⟨1, 2, 3, [2]⟩, ⟨2, 3, 4, [1]⟩]

/-- Two tasks; the second lists the id `7`, which no task has. -/
def unknownDepTasks : List Task :=
  [⟨1, 2, 3, []⟩, ⟨2, 3, 4, [1, 7]⟩]

/-- Two tasks whose exact ratios differ, `(2^28 - 1) / 2^28 < 2^28 / (2^28 + 1)`,
and whose double quotients are equal. -/
def roundingTasks : List Task :=
  [⟨1, 268435456, 268435455, []⟩, ⟨2, 268435457, 268435456, []⟩]

/-- Three tasks of duration `2^30` and priority `1`. -/
def longTasks : List Task :=
  [⟨1, 1073741824, 1, []⟩, ⟨2, 1073741824, 1, []⟩, ⟨3, 1073741824, 1, []⟩]

/-- Three tasks of duration `0` and priority `2^30`. -/
def freeTasks : List Task :=
  [⟨1, 0, 1073741824, []⟩, ⟨2, 0, 1073741824, []⟩, ⟨3, 0, 1073741824, []⟩]

/-! ## Theorems: arithmetic of `int` -/

theorem wrap32_of_isInt32 (x : Int) (h : IsInt32 x) : wrap32 x = x := by
  unfold IsInt32 at h
  unfold wrap32
  omega

/-- A sum that is a value of `int` is computed exactly. -/
theorem addInt_of_isInt32 (a b : Int) (h : IsInt32 (a + b)) : addInt a b = a + b := by
  unfold addInt
  split
  · exact wrap32_of_isInt32 _ h
  · rfl

theorem addInt_zero (a : Int) : addInt a 0 = a := by
  unfold addInt
  split
  · rename_i h
    rw [add_zero]
    exact wrap32_of_isInt32 _ h.1
  · exact add_zero a

/-- Adding a non-negative `b` never yields more than the exact sum: an overflow
makes the result negative. -/
theorem addInt_le (a b : Int) (hb : 0 ≤ b) : addInt a b ≤ a + b := by
  unfold addInt
  split
  · rename_i h
    obtain ⟨⟨h1, _⟩, _⟩ := h
    unfold wrap32
    omega
  · exact le_refl _

/-- A positive result of a sum with a non-negative `b` is the exact sum. -/
theorem addInt_pos_exact (a b : Int) (hb : 0 ≤ b) (h : 0 < addInt a b) :
    addInt a b = a + b := by
  unfold addInt at h ⊢
  split
  · rename_i hr
    rw [if_pos hr] at h
    obtain ⟨⟨h1, h2⟩, ⟨h3, h4⟩⟩ := hr
    unfold wrap32 at h ⊢
    omega
  · rfl

/-! ## Theorems: the knapsack table -/

theorem readRow_replicate (maxTime : Int) :
    RowIs (List.replicate (maxTime + 1).toNat 0) (fun _ => 0) maxTime := by
  intro t h0 h1
  have h : t.toNat < (maxTime + 1).toNat := by omega
  simp [readRow, h0, List.getElem?_replicate, h]

theorem cellValue_eq (task : Task) (done : List Task) (prev : List Int) (maxTime : Int)
    (hd : 0 ≤ task.duration) (hprev : RowIs prev (bestValue done) maxTime)
    (t : Int) (h0 : 0 ≤ t) (h1 : t ≤ maxTime) :
    cellValue task prev t = some (bestValue (task :: done) t) := by
  unfold cellValue bestValue
  by_cases h : task.duration > t
  · simp only [h, if_true]
    exact hprev t h0 h1
  · simp only [h, if_false]
    rw [hprev t h0 h1, hprev (t - task.duration) (by omega) (by omega)]

theorem fillCells_eq (task : Task) (done : List Task) (prev : List Int) (maxTime : Int)
    (hd : 0 ≤ task.duration) (hprev : RowIs prev (bestValue done) maxTime)
    (ts : List Nat) (hts : ∀ t ∈ ts, (t : Int) ≤ maxTime) :
    fillCells task prev ts = some (ts.map (fun (t : Nat) => bestValue (task :: done) (t : Int))) := by
  induction ts with
  | nil => rfl
  | cons t ts ih =>
    have h1 := cellValue_eq task done prev maxTime hd hprev (t : Int) (by omega)
      (hts t (List.mem_cons_self _ _))
    have h2 := ih (fun u hu => hts u (List.mem_cons_of_mem _ hu))
    simp [fillCells, h1, h2]

theorem fillRow_eq (task : Task) (done : List Task) (prev : List Int) (maxTime : Int)
    (hd : 0 ≤ task.duration) (hprev : RowIs prev (bestValue done) maxTime) :
    ∃ row, fillRow task prev maxTime = some row ∧ RowIs row (bestValue (task :: done)) maxTime := by
  refine ⟨_, fillCells_eq task done prev maxTime hd hprev _ ?_, ?_⟩
  · intro t ht
    have := List.mem_range.1 ht
    omega
  · intro t h0 h1
    have h : t.toNat < (maxTime + 1).toNat := by omega
    have e : ((t.toNat : Nat) : Int) = t := Int.toNat_of_nonneg h0
    unfold readRow
    rw [if_pos h0, List.getElem?_map, List.getElem?_range h]
    simp only [Option.map_some', e]

theorem fillRows_eq (maxTime : Int) (rest : List Task) :
    ∀ (done : List Task) (prev : List Int), (∀ x ∈ rest, 0 ≤ x.duration) →
      RowIs prev (bestValue done) maxTime →
      ∃ rows, fillRows maxTime rest prev = some rows ∧ rows.length = rest.length ∧
        ∀ j, j < rest.length → ∃ row, rows[j]? = some row ∧
          RowIs row (bestValue ((rest.take (j + 1)).reverse ++ done)) maxTime := by
  induction rest with
  | nil => intro done prev _ _; exact ⟨[], rfl, rfl, fun j hj => absurd hj (by simp)⟩
  | cons task rest ih =>
    intro done prev hd hprev
    obtain ⟨row, hrow, hrowIs⟩ := fillRow_eq task done prev maxTime
      (hd task (List.mem_cons_self _ _)) hprev
    obtain ⟨rows, hrows, hlen, hspec⟩ := ih (task :: done) row
      (fun x hx => hd x (List.mem_cons_of_mem _ hx)) hrowIs
    refine ⟨row :: rows, by simp [fillRows, hrow, hrows], by simp [hlen], ?_⟩
    intro j hj
    cases j with
    | zero => exact ⟨row, by simp, by simpa using hrowIs⟩
    | succ j =>
      obtain ⟨r, hr, hrIs⟩ := hspec j (by simpa using hj)
      refine ⟨r, by simpa using hr, ?_⟩
      simpa [List.take_succ_cons, List.reverse_cons, List.append_assoc] using hrIs

/-- The table is filled without leaving its bounds and `dp[i][t]` is the value
of the recurrence for the first `i` tasks and the time `t`. -/
theorem dpTable_eq (tasks : List Task) (maxTime : Int) (hd : ∀ x ∈ tasks, 0 ≤ x.duration) :
    ∃ dp, dpTable tasks maxTime = some dp ∧
      ∀ i, i ≤ tasks.length → ∀ t, 0 ≤ t → t ≤ maxTime →
        readCell dp i t = some (bestValue (tasks.take i).reverse t) := by
  obtain ⟨rows, hrows, hlen, hspec⟩ := fillRows_eq maxTime tasks [] _ hd
    (readRow_replicate maxTime)
  refine ⟨List.replicate (maxTime + 1).toNat 0 :: rows, by simp [dpTable, hrows], ?_⟩
  intro i hi t h0 h1
  cases i with
  | zero => simpa [readCell, bestValue] using readRow_replicate maxTime t h0 h1
  | succ i =>
    obtain ⟨r, hr, hrIs⟩ := hspec i hi
    have := hrIs t h0 h1
    simpa [readCell, hr] using this

/-! ## Theorems: the backward walk -/

theorem bestValue_cons_ge (task : Task) (rest : List Task) (t : Int) :
    bestValue rest t ≤ bestValue (task :: rest) t := by
  conv_rhs => rw [bestValue]
  split
  · exact le_refl _
  · exact le_max_left _ _

theorem bestValue_nonneg (l : List Task) : ∀ t, 0 ≤ bestValue l t := by
  induction l with
  | nil => intro t; simp [bestValue]
  | cons task rest ih =>
    intro t
    exact le_trans (ih t) (bestValue_cons_ge task rest t)

/-- When the value changes between rows `i` and `i + 1` the task fits and the
value is the one of the "include" branch, whose sum did not overflow: the
cells are never negative, and a sum that overflows is. -/
theorem bestValue_cons_ne (task : Task) (rest : List Task) (t : Int)
    (h : bestValue (task :: rest) t ≠ bestValue rest t) :
    task.duration ≤ t ∧
      bestValue (task :: rest) t = task.priority + bestValue rest (t - task.duration) := by
  have h0 := bestValue_nonneg rest t
  have h1 := bestValue_nonneg rest (t - task.duration)
  rw [bestValue] at h ⊢
  by_cases hd : task.duration > t
  · simp [hd] at h
  · simp only [hd, if_false] at h ⊢
    refine ⟨by omega, ?_⟩
    rcases max_cases (bestValue rest t)
        (addInt task.priority (bestValue rest (t - task.duration)))
      with ⟨h2, _⟩ | ⟨h2, h3⟩
    · exact absurd h2 h
    · rw [h2]
      exact addInt_pos_exact _ _ h1 (by omega)

theorem take_succ_reverse (tasks : List Task) (i : Nat) (task : Task) (h : tasks[i]? = some task) :
    (tasks.take (i + 1)).reverse = task :: (tasks.take i).reverse := by
  rw [List.take_succ, h]
  simp

/-- The walk from `(i, t)` stays inside the table, appends a sub-collection
`chosen` of the first `i` tasks (latest first) whose priorities sum to
`dp[i][t]` and whose durations fit in `t`. -/
theorem walkBack_spec (tasks : List Task) (dp : List (List Int)) (maxTime : Int)
    (hd : ∀ x ∈ tasks, 0 ≤ x.duration)
    (hdp : ∀ i, i ≤ tasks.length → ∀ t, 0 ≤ t → t ≤ maxTime →
      readCell dp i t = some (bestValue (tasks.take i).reverse t)) :
    ∀ i, i ≤ tasks.length → ∀ t, 0 ≤ t → t ≤ maxTime → ∀ sel,
      ∃ chosen, walkBack tasks dp i t sel = some (sel ++ chosen) ∧
        totalPriority chosen = bestValue (tasks.take i).reverse t ∧
        totalDuration chosen ≤ t ∧ chosen.Sublist (tasks.take i).reverse := by
  intro i
  induction i with
  | zero =>
    intro _ t h0 _ sel
    exact ⟨[], by simp [walkBack], by simp [totalPriority, bestValue],
      by simpa [totalDuration] using h0, by simp⟩
  | succ i ih =>
    intro hi t h0 h1 sel
    have hlt : i < tasks.length := hi
    have hget : tasks[i]? = some tasks[i] := List.getElem?_eq_getElem hlt
    have hrev := take_succ_reverse tasks i tasks[i] hget
    have hdur : 0 ≤ (tasks[i]).duration := hd _ (List.getElem_mem hlt)
    rw [walkBack, if_pos h0, hdp (i + 1) hi t h0 h1, hdp i (by omega) t h0 h1, hget, hrev]
    by_cases hne : bestValue (tasks[i] :: (tasks.take i).reverse) t
        ≠ bestValue (tasks.take i).reverse t
    · obtain ⟨hfit, hval⟩ := bestValue_cons_ne _ _ _ hne
      obtain ⟨chosen, hw, hp, hdu, hsub⟩ := ih (by omega) (t - (tasks[i]).duration)
        (by omega) (by omega) (sel ++ [tasks[i]])
      refine ⟨tasks[i] :: chosen, ?_, ?_, ?_, ?_⟩
      · dsimp only
        rw [if_pos hne, hw]
        simp
      · rw [hval, ← hp]
        simp [totalPriority]
      · simp only [totalDuration, List.map_cons, List.sum_cons] at hdu ⊢
        omega
      · exact hsub.cons₂ _
    · obtain ⟨chosen, hw, hp, hdu, hsub⟩ := ih (by omega) t h0 h1 sel
      refine ⟨chosen, ?_, ?_, hdu, hsub.cons _⟩
      · dsimp only
        rw [if_neg hne, hw]
      · rw [hp]
        exact (not_not.1 hne).symm

/-- The whole function on well-formed input: it returns, the value is the last
cell of the table, and the tasks appended to the output list attain it within
the budget. -/
theorem knapsackSchedule_spec (tasks : List Task) (maxTime : Int) (sel0 : List Task)
    (hd : ∀ x ∈ tasks, 0 ≤ x.duration) (hm : 0 ≤ maxTime) :
    ∃ chosen, knapsackSchedule tasks maxTime sel0
        = some (bestValue tasks.reverse maxTime, sel0 ++ chosen) ∧
      totalPriority chosen = bestValue tasks.reverse maxTime ∧
      totalDuration chosen ≤ maxTime ∧ chosen.Sublist tasks.reverse := by
  obtain ⟨dp, hdp, hcells⟩ := dpTable_eq tasks maxTime hd
  obtain ⟨chosen, hw, hp, hdu, hsub⟩ := walkBack_spec tasks dp maxTime hd hcells
    tasks.length (le_refl _) maxTime hm (le_refl _) sel0
  rw [List.take_length] at hp hsub
  refine ⟨chosen, ?_, hp, hdu, hsub⟩
  have hv := hcells tasks.length (le_refl _) maxTime hm (le_refl _)
  rw [List.take_length] at hv
  simp [knapsackSchedule, hdp, hw, hv]

/-! ## Theorems: optimality of the table -/

theorem totalDuration_nonneg (s : List Task) (hd : ∀ x ∈ s, 0 ≤ x.duration) :
    0 ≤ totalDuration s := by
  induction s with
  | nil => simp [totalDuration]
  | cons a s ih =>
    have h1 := hd a (List.mem_cons_self _ _)
    have h2 := ih (fun x hx => hd x (List.mem_cons_of_mem _ hx))
    simp only [totalDuration, List.map_cons, List.sum_cons] at h2 ⊢
    omega

theorem totalPriority_perm {a b : List Task} (h : a.Perm b) : totalPriority a = totalPriority b :=
  (h.map Task.priority).sum_eq

theorem totalDuration_perm {a b : List Task} (h : a.Perm b) : totalDuration a = totalDuration b :=
  (h.map Task.duration).sum_eq

theorem totalAbsPriority_perm {a b : List Task} (h : a.Perm b) :
    totalAbsPriority a = totalAbsPriority b :=
  (h.map (fun x : Task => |x.priority|)).sum_eq

theorem totalAbsPriority_nonneg (l : List Task) : 0 ≤ totalAbsPriority l := by
  induction l with
  | nil => simp [totalAbsPriority]
  | cons a l ih =>
    have := abs_nonneg a.priority
    simp only [totalAbsPriority, List.map_cons, List.sum_cons] at ih ⊢
    omega

/-- The scan when no sum overflows: if `usedTime` plus the durations still to
be scanned, and `totalPriority` plus the priorities still to be scanned (in
absolute value), are values of `int`, the scan appends a sub-collection
`chosen` of the scanned list, adds its priorities to `totalPriority` and its
durations to `usedTime`, and never lets `usedTime` pass `maxTime`. -/
theorem greedyLoop_exact (maxTime : Int) (sorted : List Task) :
    ∀ (usedTime total : Int) (sel : List Task), 0 ≤ usedTime → usedTime ≤ maxTime →
      (∀ x ∈ sorted, 0 ≤ x.duration) →
      usedTime + totalDuration sorted < 2147483648 →
      |total| + totalAbsPriority sorted < 2147483648 →
      ∃ chosen, greedyLoop maxTime sorted usedTime total sel
          = (total + totalPriority chosen, sel ++ chosen) ∧
        usedTime + totalDuration chosen ≤ maxTime ∧ chosen.Sublist sorted := by
  induction sorted with
  | nil =>
    intro usedTime total sel _ h _ _ _
    exact ⟨[], by simp [greedyLoop, totalPriority], by simpa [totalDuration] using h, by simp⟩
  | cons task rest ih =>
    intro usedTime total sel h0 h hd hdur hpri
    have hrest : ∀ x ∈ rest, 0 ≤ x.duration := fun x hx => hd x (List.mem_cons_of_mem _ hx)
    have htd := hd task (List.mem_cons_self _ _)
    have hrd := totalDuration_nonneg rest hrest
    have hra := totalAbsPriority_nonneg rest
    simp only [totalDuration, List.map_cons, List.sum_cons] at hdur hrd
    simp only [totalAbsPriority, List.map_cons, List.sum_cons] at hpri hra
    have ht1 := abs_le.1 (le_refl |total|)
    have ht2 := abs_le.1 (le_refl |task.priority|)
    have ht3 := abs_add total task.priority
    have ht4 := abs_nonneg total
    have ht5 := abs_nonneg task.priority
    have hu : addInt usedTime task.duration = usedTime + task.duration :=
      addInt_of_isInt32 _ _ (by unfold IsInt32; omega)
    have hp : addInt total task.priority = total + task.priority :=
      addInt_of_isInt32 _ _ (by unfold IsInt32; omega)
    by_cases hfit : usedTime + task.duration ≤ maxTime
    · obtain ⟨chosen, hrun, hdu, hsub⟩ := ih (usedTime + task.duration) (total + task.priority)
        (sel ++ [task]) (by omega) hfit hrest (by simp only [totalDuration]; omega)
        (by simp only [totalAbsPriority]; omega)
      refine ⟨task :: chosen, ?_, ?_, hsub.cons₂ _⟩
      · rw [greedyLoop, hu, hp, if_pos hfit, hrun]
        simp [totalPriority, add_assoc]
      · simp only [totalDuration, List.map_cons, List.sum_cons] at hdu ⊢
        omega
    · obtain ⟨chosen, hrun, hdu, hsub⟩ := ih usedTime total sel h0 h hrest
        (by simp only [totalDuration]; omega) (by simp only [totalAbsPriority]; omega)
      exact ⟨chosen, by rw [greedyLoop, hu, if_neg hfit, hrun], hdu, hsub.cons _⟩

/-- The whole function when no sum overflows: what it appends to the output
list is a sub-collection of the sorted copy that fits the budget, and it
returns the total priority of what it appended. -/
theorem greedySchedule_exact (sortByRatio : List Task → List Task) (tasks : List Task)
    (maxTime : Int) (sel0 : List Task) (hsort : (sortByRatio tasks).Perm tasks)
    (hd : ∀ x ∈ tasks, 0 ≤ x.duration) (hm : 0 ≤ maxTime)
    (hdur : totalDuration tasks < 2147483648) (hpri : totalAbsPriority tasks < 2147483648) :
    ∃ chosen, greedySchedule sortByRatio tasks maxTime sel0
        = (totalPriority chosen, sel0 ++ chosen) ∧
      totalDuration chosen ≤ maxTime ∧ chosen.Sublist (sortByRatio tasks) := by
  obtain ⟨chosen, hrun, hdu, hsub⟩ := greedyLoop_exact maxTime (sortByRatio tasks) 0 0 sel0
    (le_refl _) hm (fun x hx => hd x (hsort.subset hx))
    (by rw [totalDuration_perm hsort]; omega)
    (by rw [totalAbsPriority_perm hsort]; simpa using hpri)
  exact ⟨chosen, by simpa [greedySchedule] using hrun, by simpa using hdu, hsub⟩

/-- C5, as the code behaves: feasibility of `greedySchedule` when no `int` sum
overflows.  For tasks with non-negative durations whose durations sum to at
most `2147483647` and whose priorities sum in absolute value to at most
`2147483647`, and `maxTime ≥ 0`, called with an empty output list, whatever
arrangement of the tasks the sort produces, the durations of the tasks put in
`selectedTasks` sum to at most `maxTime`, and the returned integer is the sum
of the priorities of exactly those tasks. -/
theorem greedySchedule_feasible (sortByRatio : List Task → List Task) (tasks : List Task)
    (maxTime : Int) (hsort : (sortByRatio tasks).Perm tasks)
    (hd : ∀ x ∈ tasks, 0 ≤ x.duration) (hm : 0 ≤ maxTime)
    (hdur : totalDuration tasks < 2147483648) (hpri : totalAbsPriority tasks < 2147483648) :
    totalDuration (greedySchedule sortByRatio tasks maxTime []).2 ≤ maxTime ∧
      (greedySchedule sortByRatio tasks maxTime []).1
        = totalPriority (greedySchedule sortByRatio tasks maxTime []).2 := by
  obtain ⟨chosen, hg, hdu, _⟩ := greedySchedule_exact sortByRatio tasks maxTime [] hsort
    hd hm hdur hpri
  rw [hg]
  exact ⟨by simpa using hdu, by simp⟩

theorem greedySchedule_feasible_witness :
    totalDuration (greedySchedule exactRatioSort exampleTasks 5 []).2 ≤ 5 ∧
      (greedySchedule exactRatioSort exampleTasks 5 []).1
        = totalPriority (greedySchedule exactRatioSort exampleTasks 5 []).2 :=
  greedySchedule_feasible exactRatioSort exampleTasks 5
    (List.perm_insertionSort ratioGe exampleTasks) (by decide) (by decide) (by decide)
    (by decide)

/-- C5, as the claim states it, fails: the three tasks of `longTasks` have
duration `2^30`, and `maxTime = 2147483647`.  After the first task `usedTime`
is `2^30`; the sum `2^30 + 2^30` of line 72 overflows to `-2^31`, which is at
most `maxTime`, so the second task is taken, and then the third: the selected
durations sum to `3 * 2^30`, more than `maxTime`. -/
theorem greedySchedule_feasible_counterexample :
    (∀ x ∈ longTasks, 0 ≤ x.duration) ∧
      (∀ x ∈ longTasks, IsInt32 x.duration ∧ IsInt32 x.priority) ∧
      doubleRatioSort longTasks = longTasks ∧
      greedySchedule doubleRatioSort longTasks 2147483647 [] = (3, longTasks) ∧
      ¬ totalDuration (greedySchedule doubleRatioSort longTasks 2147483647 []).2
          ≤ 2147483647 := by
  decide

/-! ## Theorems: the graph built by topologicalSort -/

theorem edges_cons (task : Task) (rest : List Task) :
    edges (task :: rest) = task.dependencies.map (fun d => (d, task.id)) ++ edges rest := by
  simp [edges]

theorem addEdges_adj (tid : Int) (deps : List Int) :
    ∀ (g : (Int → List Int) × DegreeMap) (d : Int),
      (deps.foldl (fun g dep => (Function.update g.1 dep (g.1 dep ++ [tid]),
          g.2.assign tid (g.2.val tid + 1))) g).1 d
        = g.1 d ++ ((deps.map (fun d1 => (d1, tid))).filter
            (fun e => decide (e.1 = d))).map Prod.snd := by
  induction deps with
  | nil => intro g d; simp
  | cons dep rest ih =>
    intro g d
    rw [List.foldl_cons, ih]
    by_cases h : dep = d
    · subst h
      simp [List.filter_cons]
    · have h1 : d ≠ dep := fun e => h e.symm
      simp [List.filter_cons, h, Function.update_noteq h1]

theorem addEdges_val (tid : Int) (deps : List Int) :
    ∀ (g : (Int → List Int) × DegreeMap) (x : Int),
      (deps.foldl (fun g dep => (Function.update g.1 dep (g.1 dep ++ [tid]),
          g.2.assign tid (g.2.val tid + 1))) g).2.val x
        = g.2.val x + ((deps.map (fun d1 => (d1, tid))).countP
            (fun e => decide (e.2 = x)) : Nat) := by
  induction deps with
  | nil => intro g x; simp
  | cons dep rest ih =>
    intro g x
    rw [List.foldl_cons, ih]
    by_cases h : tid = x
    · subst h
      simp [List.countP_cons, DegreeMap.assign]
      omega
    · have h1 : x ≠ tid := fun e => h e.symm
      simp [List.countP_cons, DegreeMap.assign, h, Function.update_noteq h1]

theorem addEdges_keys (tid : Int) (deps : List Int) :
    ∀ (g : (Int → List Int) × DegreeMap), tid ∈ g.2.keys →
      (deps.foldl (fun g dep => (Function.update g.1 dep (g.1 dep ++ [tid]),
          g.2.assign tid (g.2.val tid + 1))) g).2.keys = g.2.keys := by
  induction deps with
  | nil => intro g _; rfl
  | cons dep rest ih =>
    intro g hg
    rw [List.foldl_cons, ih]
    · simp [DegreeMap.assign, hg]
    · simp [DegreeMap.assign, hg]

theorem buildGraph_fold (tasks : List Task) :
    ∀ (g : (Int → List Int) × DegreeMap), (∀ t ∈ tasks, t.id ∈ g.2.keys) →
      (∀ d, (tasks.foldl (fun g task => addEdges task g) g).1 d = g.1 d ++ adjList tasks d) ∧
      (∀ x, (tasks.foldl (fun g task => addEdges task g) g).2.val x
        = g.2.val x + ((edges tasks).countP (fun e => decide (e.2 = x)) : Nat)) ∧
      (tasks.foldl (fun g task => addEdges task g) g).2.keys = g.2.keys := by
  induction tasks with
  | nil => intro g _; simp [adjList, edges]
  | cons task rest ih =>
    intro g hg
    have hk : (addEdges task g).2.keys = g.2.keys :=
      addEdges_keys task.id task.dependencies g (hg task (List.mem_cons_self _ _))
    obtain ⟨h1, h2, h3⟩ := ih (addEdges task g)
      (fun t ht => by rw [hk]; exact hg t (List.mem_cons_of_mem _ ht))
    rw [List.foldl_cons]
    refine ⟨?_, ?_, by rw [h3, hk]⟩
    · intro d
      rw [h1, addEdges, addEdges_adj, adjList, adjList, edges_cons]
      simp [List.filter_append]
    · intro x
      rw [h2, addEdges, addEdges_val, edges_cons, List.countP_append]
      push_cast
      ring

theorem initInDegree_fold (tasks : List Task) :
    ∀ (m : DegreeMap), m.keys.Nodup → (∀ x, m.val x = 0) →
      (tasks.foldl (fun m task => m.assign task.id 0) m).keys.Nodup ∧
      (∀ k, k ∈ (tasks.foldl (fun m task => m.assign task.id 0) m).keys
        ↔ k ∈ m.keys ∨ k ∈ tasks.map Task.id) ∧
      (∀ x, (tasks.foldl (fun m task => m.assign task.id 0) m).val x = 0) := by
  induction tasks with
  | nil => intro m h1 h2; exact ⟨h1, by simp, h2⟩
  | cons task rest ih =>
    intro m h1 h2
    have hn : (m.assign task.id 0).keys.Nodup := by
      unfold DegreeMap.assign
      by_cases hk : task.id ∈ m.keys
      · simpa [hk] using h1
      · simp only [hk, if_false]
        exact List.Nodup.append h1 (List.nodup_singleton _) (by simpa using hk)
    have hv : ∀ x, (m.assign task.id 0).val x = 0 := by
      intro x
      unfold DegreeMap.assign
      by_cases hx : x = task.id
      · subst hx
        simp
      · simp [Function.update_noteq hx, h2]
    obtain ⟨a, b, c⟩ := ih (m.assign task.id 0) hn hv
    rw [List.foldl_cons]
    refine ⟨a, ?_, c⟩
    intro k
    rw [b]
    unfold DegreeMap.assign
    by_cases hk : task.id ∈ m.keys
    · simp only [hk, if_true, List.map_cons, List.mem_cons]
      constructor
      · rintro (h | h)
        · exact Or.inl h
        · exact Or.inr (Or.inr h)
      · rintro (h | h | h)
        · exact Or.inl h
        · exact Or.inl (h ▸ hk)
        · exact Or.inr h
    · simp only [hk, if_false, List.map_cons, List.mem_cons, List.mem_append,
        List.mem_singleton]
      tauto

/-- What lines 82-96 build: `adj[d]` lists the dependents of `d`, `inDegree[x]`
counts the dependency entries of `x`, and the keys of `inDegree` are the task
ids, each once. -/
theorem buildGraph_spec (tasks : List Task) :
    (∀ d, (buildGraph tasks).1 d = adjList tasks d) ∧
    (∀ x, (buildGraph tasks).2.val x = (pending tasks [] x : Nat)) ∧
    (buildGraph tasks).2.keys.Nodup ∧
    (∀ k, k ∈ (buildGraph tasks).2.keys ↔ k ∈ tasks.map Task.id) := by
  obtain ⟨a, b, c⟩ := initInDegree_fold tasks DegreeMap.empty (by simp [DegreeMap.empty])
    (fun _ => rfl)
  have hb : ∀ k, k ∈ (initInDegree tasks).keys ↔ k ∈ tasks.map Task.id := by
    intro k
    have := b k
    simpa [DegreeMap.empty, initInDegree] using this
  obtain ⟨h1, h2, h3⟩ := buildGraph_fold tasks (fun _ => [], initInDegree tasks)
    (fun t ht => (hb t.id).2 (List.mem_map_of_mem _ ht))
  refine ⟨?_, ?_, ?_, ?_⟩
  · intro d
    simpa [buildGraph] using h1 d
  · intro x
    have := h2 x
    simp only [buildGraph]
    rw [this]
    have hz : (initInDegree tasks).val x = 0 := c x
    simp [hz, pending]
  · simp only [buildGraph]
    rw [h3]
    exact a
  · intro k
    simp only [buildGraph]
    rw [h3]
    exact hb k

/-! ## Theorems: one round of the while loop -/

theorem visitNeighbors_spec (nbrs : List Int) :
    ∀ (deg : Int → Int) (q : List Int), (∀ x, (nbrs.count x : Int) ≤ deg x) →
      ∃ added, (visitNeighbors nbrs (deg, q)).2 = q ++ added ∧
        (∀ x, (visitNeighbors nbrs (deg, q)).1 x = deg x - (nbrs.count x : Nat)) ∧
        added.Nodup ∧ ∀ x, x ∈ added ↔ (x ∈ nbrs ∧ deg x = (nbrs.count x : Nat)) := by
  induction nbrs with
  | nil =>
    intro deg q _
    exact ⟨[], by simp [visitNeighbors], by simp [visitNeighbors], List.nodup_nil, by simp⟩
  | cons n rest ih =>
    intro deg q hpre
    have hn := hpre n
    rw [List.count_cons_self] at hn
    have hpre1 : ∀ x, (rest.count x : Int) ≤ Function.update deg n (deg n - 1) x := by
      intro x
      by_cases hx : x = n
      · subst hx
        simp only [Function.update_same]
        push_cast at hn
        omega
      · have := hpre x
        rw [List.count_cons_of_ne hx] at this
        simpa [Function.update_noteq hx] using this
    obtain ⟨added1, hq, hdeg, hnd, hmem⟩ := ih (Function.update deg n (deg n - 1))
      (if deg n - 1 = 0 then q ++ [n] else q) hpre1
    have hmemn := hmem n
    simp only [Function.update_same] at hmemn
    refine ⟨(if deg n - 1 = 0 then [n] else []) ++ added1, ?_, ?_, ?_, ?_⟩
    · rw [visitNeighbors, hq]
      by_cases h0 : deg n - 1 = 0 <;> simp [h0]
    · intro x
      rw [visitNeighbors, hdeg]
      by_cases hx : x = n
      · subst hx
        simp only [Function.update_same, List.count_cons_self]
        push_cast
        ring
      · rw [Function.update_noteq hx, List.count_cons_of_ne hx]
    · by_cases h0 : deg n - 1 = 0
      · simp only [h0, if_true, List.singleton_append, List.nodup_cons]
        refine ⟨?_, hnd⟩
        intro hin
        obtain ⟨hr, hc⟩ := hmemn.1 hin
        have := List.count_pos_iff.2 hr
        omega
      · simpa [h0] using hnd
    · intro x
      by_cases hx : x = n
      · subst hx
        simp only [List.mem_append, List.mem_cons, true_or, true_and, List.count_cons_self]
        rw [hmemn]
        push_cast at hn ⊢
        constructor
        · rintro (h | ⟨_, h⟩)
          · by_cases h0 : deg x - 1 = 0
            · have : 0 ≤ (rest.count x : Int) := Int.natCast_nonneg _
              omega
            · simp [h0] at h
          · omega
        · intro h
          by_cases hc : rest.count x = 0
          · left
            have h0 : deg x - 1 = 0 := by omega
            simp [h0]
          · right
            exact ⟨List.count_pos_iff.1 (Nat.pos_of_ne_zero hc), by omega⟩
      · have hne : n ≠ x := fun e => hx e.symm
        have hnot : x ∉ (if deg n - 1 = 0 then [n] else []) := by
          by_cases h0 : deg n - 1 = 0 <;> simp [h0, hx]
        rw [List.mem_append, hmem x, Function.update_noteq hx, List.count_cons_of_ne hx]
        simp [hnot, hx]

theorem countP_pending_step (E : List (Int × Int)) (order : List Int) (curr x : Int)
    (h : curr ∉ order) :
    E.countP (fun e => decide (e.2 = x ∧ e.1 ∉ order))
      = E.countP (fun e => decide (e.2 = x ∧ e.1 ∉ order ++ [curr]))
        + ((E.filter (fun e => decide (e.1 = curr))).map Prod.snd).count x := by
  induction E with
  | nil => simp
  | cons e E ih =>
    simp only [List.countP_cons, List.filter_cons, ih]
    by_cases h1 : e.1 = curr
    · have h3 : e.1 ∉ order := h1 ▸ h
      by_cases h2 : e.2 = x
      · simp [h1, h2, h]
        omega
      · simp [h1, h2, h, List.count_cons_of_ne (fun e => h2 e.symm)]
    · by_cases h2 : e.2 = x <;> by_cases h3 : e.1 ∈ order <;> simp [h1, h2, h3]
      omega

/-- Processing `curr` removes from the count of `x` the entries of `x` in
`adj[curr]`. -/
theorem pending_step (tasks : List Task) (order : List Int) (curr x : Int) (h : curr ∉ order) :
    pending tasks order x
      = pending tasks (order ++ [curr]) x + (adjList tasks curr).count x :=
  countP_pending_step (edges tasks) order curr x h

theorem pending_eq_zero (tasks : List Task) (order : List Int) (x : Int) :
    pending tasks order x = 0 ↔ ∀ d, DependsOn tasks d x → d ∈ order := by
  unfold pending DependsOn
  rw [List.countP_eq_zero]
  constructor
  · intro h d hd
    have := h (d, x) hd
    simpa using this
  · intro h e he
    have h1 : e = (e.1, e.2) := rfl
    simp only [decide_eq_true_eq, not_and, not_not]
    intro h2
    exact h e.1 (by rw [h1, h2] at he; exact he)

theorem mem_adjList (tasks : List Task) (d x : Int) :
    x ∈ adjList tasks d ↔ DependsOn tasks d x := by
  unfold adjList DependsOn
  simp only [List.mem_map, List.mem_filter, decide_eq_true_eq]
  constructor
  · rintro ⟨e, ⟨he, h1⟩, h2⟩
    have : e = (d, x) := by rw [← h1, ← h2]
    rwa [this] at he
  · intro h
    exact ⟨(d, x), ⟨h, rfl⟩, rfl⟩

theorem dependsOn_target (tasks : List Task) (d x : Int) (h : DependsOn tasks d x) :
    x ∈ tasks.map Task.id := by
  unfold DependsOn edges at h
  simp only [List.mem_flatMap, List.mem_map, Prod.mk.injEq] at h
  obtain ⟨t, ht, _, _, _, hx⟩ := h
  exact hx ▸ List.mem_map_of_mem _ ht

theorem dependsOn_iff (tasks : List Task) (d x : Int) :
    DependsOn tasks d x ↔ ∃ t ∈ tasks, t.id = x ∧ d ∈ t.dependencies := by
  unfold DependsOn edges
  simp only [List.mem_flatMap, List.mem_map, Prod.mk.injEq]
  constructor
  · rintro ⟨t, ht, d1, hd1, h1, h2⟩
    exact ⟨t, ht, h2, h1 ▸ hd1⟩
  · rintro ⟨t, ht, h1, h2⟩
    exact ⟨t, ht, d, h2, rfl, h1⟩

/-! ## Theorems: the invariant of the while loop -/

theorem kahnInv_init (iterationOrder : List Int → List Int) (tasks : List Task)
    (hiter : (iterationOrder (buildGraph tasks).2.keys).Perm (buildGraph tasks).2.keys) :
    KahnInv tasks (buildGraph tasks).2.val
      ((iterationOrder (buildGraph tasks).2.keys).filter
        (fun k => decide ((buildGraph tasks).2.val k = 0))) [] := by
  obtain ⟨_, hval, hnd, hkeys⟩ := buildGraph_spec tasks
  refine ⟨?_, hval, ?_, ?_⟩
  · rw [List.nil_append]
    exact (hiter.nodup_iff.2 hnd).filter _
  · intro x
    rw [List.nil_append, List.mem_filter, hiter.mem_iff, hkeys]
    simp
  · intro x hx
    simp at hx

theorem kahnInv_step (tasks : List Task) (deg : Int → Int) (curr : Int) (q order : List Int)
    (h : KahnInv tasks deg (curr :: q) order) :
    KahnInv tasks (visitNeighbors (adjList tasks curr) (deg, q)).1
      (visitNeighbors (adjList tasks curr) (deg, q)).2 (order ++ [curr]) := by
  have hnd := h.nodup
  have hcurr : curr ∉ order := by
    intro hin
    have := (List.nodup_append.1 hnd).2.2
    exact this hin (List.mem_cons_self _ _)
  have hpre : ∀ x, ((adjList tasks curr).count x : Int) ≤ deg x := by
    intro x
    rw [h.deg_eq x, pending_step tasks order curr x hcurr]
    push_cast
    omega
  obtain ⟨added, hq, hdeg, hadd, hmem⟩ := visitNeighbors_spec (adjList tasks curr) deg q hpre
  have hdeg1 : ∀ x, (visitNeighbors (adjList tasks curr) (deg, q)).1 x
      = (pending tasks (order ++ [curr]) x : Nat) := by
    intro x
    rw [hdeg, h.deg_eq x, pending_step tasks order curr x hcurr]
    push_cast
    ring
  have hold : ∀ x, x ∈ order ++ curr :: q → deg x = 0 := fun x hx => ((h.ready x).1 hx).2
  have hnew : ∀ x, x ∈ added → deg x ≠ 0 := by
    intro x hx
    obtain ⟨h1, h2⟩ := (hmem x).1 hx
    have := List.count_pos_iff.2 h1
    omega
  have hre : order ++ [curr] ++ (q ++ added) = (order ++ curr :: q) ++ added := by simp
  refine ⟨?_, hdeg1, ?_, ?_⟩
  · rw [hq, hre]
    refine List.Nodup.append hnd hadd ?_
    intro x h1 h2
    exact hnew x h2 (hold x h1)
  · intro x
    rw [hq, hre, List.mem_append, h.ready x, hmem x, hdeg x]
    have hp := hpre x
    have hc : 0 ≤ ((adjList tasks curr).count x : Int) := Int.natCast_nonneg _
    constructor
    · rintro (⟨h1, h2⟩ | ⟨h1, h2⟩)
      · exact ⟨h1, by omega⟩
      · exact ⟨dependsOn_target tasks curr x ((mem_adjList tasks curr x).1 h1), by omega⟩
    · rintro ⟨h1, h2⟩
      by_cases h0 : deg x = 0
      · exact Or.inl ⟨h1, h0⟩
      · right
        have hpos : 0 < (adjList tasks curr).count x := by omega
        exact ⟨List.count_pos_iff.1 hpos, by omega⟩
  · intro x hx d hd
    rcases List.mem_append.1 hx with hx1 | hx1
    · obtain ⟨h1, h2⟩ := h.valid x hx1 d hd
      exact ⟨List.mem_append_left _ h1, by
        rw [List.indexOf_append_of_mem h1, List.indexOf_append_of_mem hx1]; exact h2⟩
    · have hx2 : x = curr := by simpa using hx1
      subst hx2
      have h0 : deg x = 0 := hold x (by simp)
      have hp0 : pending tasks order x = 0 := by
        have := h.deg_eq x
        omega
      have hdin : d ∈ order := (pending_eq_zero tasks order x).1 hp0 d hd
      refine ⟨List.mem_append_left _ hdin, ?_⟩
      rw [List.indexOf_append_of_mem hdin, List.indexOf_append_of_not_mem hcurr]
      have := List.indexOf_lt_length.2 hdin
      omega

theorem kahnInv_length_le (tasks : List Task) (deg : Int → Int) (q order : List Int)
    (h : KahnInv tasks deg q order) : (order ++ q).length ≤ tasks.length := by
  have := (List.subperm_of_subset h.nodup (fun x hx => ((h.ready x).1 hx).1)).length_le
  simpa using this

/-- With more fuel than tasks left to output the loop ends, and it ends in a
state that satisfies the invariant with an empty queue. -/
theorem kahnLoop_total (tasks : List Task) :
    ∀ (fuel : Nat) (deg : Int → Int) (q order : List Int), KahnInv tasks deg q order →
      tasks.length < fuel + order.length →
      ∃ deg1 order1, kahnLoop (adjList tasks) fuel deg q order = some order1 ∧
        KahnInv tasks deg1 [] order1 := by
  intro fuel
  induction fuel with
  | zero =>
    intro deg q order h hf
    have := kahnInv_length_le tasks deg q order h
    simp only [List.length_append] at this
    omega
  | succ fuel ih =>
    intro deg q order h hf
    cases q with
    | nil => exact ⟨deg, order, rfl, h⟩
    | cons curr q =>
      have hl := kahnInv_length_le tasks deg (curr :: q) order h
      simp only [List.length_append, List.length_cons] at hl
      rw [kahnLoop]
      exact ih _ _ _ (kahnInv_step tasks deg curr q order h)
        (by simp only [List.length_append, List.length_singleton]; omega)

/-- The state in which the while loop of `topologicalSort` ends. -/
theorem topologicalSort_run (iterationOrder : List Int → List Int) (fuel : Nat)
    (tasks : List Task) (hiter : ∀ ks, (iterationOrder ks).Perm ks)
    (hfuel : tasks.length < fuel) :
    ∃ deg order, KahnInv tasks deg [] order ∧
      topologicalSort iterationOrder fuel tasks
        = some (if order.length ≠ tasks.length then [] else order) := by
  have hadj : (buildGraph tasks).1 = adjList tasks := funext (buildGraph_spec tasks).1
  obtain ⟨deg, order, hrun, hinv⟩ := kahnLoop_total tasks fuel _ _ []
    (kahnInv_init iterationOrder tasks (hiter _)) (by simpa using hfuel)
  refine ⟨deg, order, hinv, ?_⟩
  unfold topologicalSort
  rw [hadj, hrun]
  by_cases hl : order.length = tasks.length <;> simp [hl]

/-! ## Theorems: the final state of topologicalSort -/

theorem kahnInv_final_perm (tasks : List Task) (deg : Int → Int) (order : List Int)
    (h : KahnInv tasks deg [] order) (hlen : order.length = tasks.length) :
    order.Perm (tasks.map Task.id) := by
  have hnd : order.Nodup := by simpa using h.nodup
  have hsub : order ⊆ tasks.map Task.id := fun x hx => ((h.ready x).1 (by simpa using hx)).1
  exact (List.subperm_of_subset hnd hsub).perm_of_length_le (by simp [hlen])

/-- In the final state an id is in the output exactly when it is a task id all
of whose dependencies are in the output. -/
theorem kahnInv_final_mem (tasks : List Task) (deg : Int → Int) (order : List Int)
    (h : KahnInv tasks deg [] order) (x : Int) :
    x ∈ order ↔ x ∈ tasks.map Task.id ∧ ∀ d, DependsOn tasks d x → d ∈ order := by
  have h1 := h.ready x
  rw [List.append_nil] at h1
  rw [h1, ← pending_eq_zero, h.deg_eq x]
  simp

theorem transGen_dependsOn_target (tasks : List Task) (a b : Int)
    (h : Relation.TransGen (DependsOn tasks) a b) : b ∈ tasks.map Task.id := by
  cases h with
  | single h => exact dependsOn_target tasks _ _ h
  | tail _ h => exact dependsOn_target tasks _ _ h

theorem kahnInv_transGen (tasks : List Task) (deg : Int → Int) (order : List Int)
    (h : KahnInv tasks deg [] order) (a b : Int)
    (hab : Relation.TransGen (DependsOn tasks) a b) :
    b ∈ order → a ∈ order ∧ List.indexOf a order < List.indexOf b order := by
  induction hab with
  | single hd => intro hb; exact h.valid _ hb _ hd
  | tail _ hd ih =>
    intro hb
    obtain ⟨hc, hlt⟩ := h.valid _ hb _ hd
    obtain ⟨ha, hlt1⟩ := ih hc
    exact ⟨ha, lt_trans hlt1 hlt⟩

/-- In an acyclic graph whose dependencies are all task ids, the final output
holds every task id. -/
theorem kahnInv_final_complete (tasks : List Task) (deg : Int → Int) (order : List Int)
    (h : KahnInv tasks deg [] order)
    (hclosed : ∀ t ∈ tasks, ∀ d ∈ t.dependencies, d ∈ tasks.map Task.id)
    (hacyc : ¬ HasCycle tasks) : ∀ x ∈ tasks.map Task.id, x ∈ order := by
  let r : {x // x ∈ tasks.map Task.id} → {x // x ∈ tasks.map Task.id} → Prop :=
    fun a b => Relation.TransGen (DependsOn tasks) a.1 b.1
  haveI : IsTrans _ r := ⟨fun _ _ _ h1 h2 => Relation.TransGen.trans h1 h2⟩
  haveI : IsIrrefl _ r := ⟨fun a ha => hacyc ⟨a.1, ha⟩⟩
  have hwf : WellFounded r := Finite.wellFounded_of_trans_of_irrefl r
  have key : ∀ s : {x // x ∈ tasks.map Task.id}, s.1 ∈ order := by
    intro s
    induction s using hwf.induction with
    | _ s ih =>
      rw [kahnInv_final_mem tasks deg order h]
      refine ⟨s.2, ?_⟩
      intro d hd
      obtain ⟨t, ht, _, hdt⟩ := (dependsOn_iff tasks d s.1).1 hd
      exact ih ⟨d, hclosed t ht d hdt⟩ (Relation.TransGen.single hd)
  exact fun x hx => key ⟨x, hx⟩

/-- A task list whose every dependency edge goes up along some rank has no
cycle. -/
theorem not_hasCycle_of_rank (tasks : List Task) (rank : Int → Int)
    (h : ∀ e ∈ edges tasks, rank e.1 < rank e.2) : ¬ HasCycle tasks := by
  have key : ∀ a b, Relation.TransGen (DependsOn tasks) a b → rank a < rank b := by
    intro a b hab
    induction hab with
    | single hd => exact h _ hd
    | tail _ hd ih => exact lt_trans ih (h _ hd)
  rintro ⟨x, hx⟩
  exact lt_irrefl _ (key x x hx)

/-! ## Claims on topologicalSort -/

/-- C6. Topological validity of `topologicalSort`: for tasks with unique ids and
every iteration order of the in-degree map, the call returns, and if the
returned order is non-empty then for every task `t` and every `d` in
`t.dependencies`, `d` occurs in the order at a position strictly before
`t.id`. -/
theorem topologicalSort_dependencies_first (iterationOrder : List Int → List Int)
    (fuel : Nat) (tasks : List Task) (hiter : ∀ ks, (iterationOrder ks).Perm ks)
    (_huniq : (tasks.map Task.id).Nodup) (hfuel : tasks.length < fuel) :
    ∃ order, topologicalSort iterationOrder fuel tasks = some order ∧
      (order ≠ [] → ∀ t ∈ tasks, ∀ d ∈ t.dependencies,
        d ∈ order ∧ t.id ∈ order ∧ List.indexOf d order < List.indexOf t.id order) := by
  obtain ⟨deg, order, hinv, hrun⟩ := topologicalSort_run iterationOrder fuel tasks hiter hfuel
  refine ⟨_, hrun, ?_⟩
  by_cases hl : order.length = tasks.length
  · simp only [hl, ne_eq, not_true_eq_false, if_false]
    intro _ t ht d hd
    have hmem : t.id ∈ order :=
      (kahnInv_final_perm tasks deg order hinv hl).mem_iff.2 (List.mem_map_of_mem _ ht)
    obtain ⟨h1, h2⟩ := hinv.valid t.id hmem d ((dependsOn_iff tasks d t.id).2 ⟨t, ht, rfl, hd⟩)
    exact ⟨h1, hmem, h2⟩
  · simp [hl]

theorem topologicalSort_dependencies_first_witness :
    ∃ order, topologicalSort List.reverse 4 exampleDeps = some order ∧
      (order ≠ [] → ∀ t ∈ exampleDeps, ∀ d ∈ t.dependencies,
        d ∈ order ∧ t.id ∈ order ∧ List.indexOf d order < List.indexOf t.id order) :=
  topologicalSort_dependencies_first List.reverse 4 exampleDeps List.reverse_perm
    (by decide) (by decide)

/-- C7. Completeness of `topologicalSort`: for tasks with unique ids, if the
returned order is non-empty then it is a permutation of the input task ids, so
every task id occurs in it exactly once and nothing else occurs in it. -/
theorem topologicalSort_permutation (iterationOrder : List Int → List Int)
    (fuel : Nat) (tasks : List Task) (hiter : ∀ ks, (iterationOrder ks).Perm ks)
    (huniq : (tasks.map Task.id).Nodup) (hfuel : tasks.length < fuel) :
    ∃ order, topologicalSort iterationOrder fuel tasks = some order ∧
      (order ≠ [] → order.Perm (tasks.map Task.id) ∧
        (∀ t ∈ tasks, order.count t.id = 1) ∧
        ∀ x ∈ order, ∃ t ∈ tasks, t.id = x) := by
  obtain ⟨deg, order, hinv, hrun⟩ := topologicalSort_run iterationOrder fuel tasks hiter hfuel
  refine ⟨_, hrun, ?_⟩
  by_cases hl : order.length = tasks.length
  · simp only [hl, ne_eq, not_true_eq_false, if_false]
    intro _
    have hperm := kahnInv_final_perm tasks deg order hinv hl
    refine ⟨hperm, ?_, ?_⟩
    · intro t ht
      rw [hperm.count_eq]
      exact List.count_eq_one_of_mem huniq (List.mem_map_of_mem _ ht)
    · intro x hx
      have := hperm.mem_iff.1 hx
      simpa using this
  · simp [hl]

theorem topologicalSort_permutation_witness :
    ∃ order, topologicalSort List.reverse 4 exampleDeps = some order ∧
      (order ≠ [] → order.Perm (exampleDeps.map Task.id) ∧
        (∀ t ∈ exampleDeps, order.count t.id = 1) ∧
        ∀ x ∈ order, ∃ t ∈ exampleDeps, t.id = x) :=
  topologicalSort_permutation List.reverse 4 exampleDeps List.reverse_perm
    (by decide) (by decide)

/-- C8. Cycle detection in `topologicalSort`: for tasks with unique ids whose
dependency edges contain a cycle (a task that lists its own id included), every
run returns the empty sequence. -/
theorem topologicalSort_cycle_empty (iterationOrder : List Int → List Int)
    (fuel : Nat) (tasks : List Task) (hiter : ∀ ks, (iterationOrder ks).Perm ks)
    (_huniq : (tasks.map Task.id).Nodup) (hcyc : HasCycle tasks)
    (hfuel : tasks.length < fuel) :
    topologicalSort iterationOrder fuel tasks = some [] := by
  obtain ⟨deg, order, hinv, hrun⟩ := topologicalSort_run iterationOrder fuel tasks hiter hfuel
  rw [hrun]
  by_cases hl : order.length = tasks.length
  · exfalso
    obtain ⟨x, hx⟩ := hcyc
    have hmem : x ∈ order :=
      (kahnInv_final_perm tasks deg order hinv hl).mem_iff.2
        (transGen_dependsOn_target tasks x x hx)
    exact lt_irrefl _ (kahnInv_transGen tasks deg order hinv x x hx hmem).2
  · simp [hl]

theorem topologicalSort_cycle_empty_witness :
    topologicalSort List.reverse 3 cycleTasks = some [] :=
  topologicalSort_cycle_empty List.reverse 3 cycleTasks List.reverse_perm (by decide)
    ⟨1, Relation.TransGen.tail (Relation.TransGen.single (by decide : DependsOn cycleTasks 1 2))
      (by decide : DependsOn cycleTasks 2 1)⟩
    (by decide)

/-- C9. `topologicalSort` fails only when no total order exists: for a non-empty
task list with unique ids in which every dependency id is the id of a task and
the dependency graph has no cycle, every run returns a sequence of length `n`,
which is not the empty failure result. -/
theorem topologicalSort_acyclic_succeeds (iterationOrder : List Int → List Int)
    (fuel : Nat) (tasks : List Task) (hiter : ∀ ks, (iterationOrder ks).Perm ks)
    (hne : tasks ≠ []) (huniq : (tasks.map Task.id).Nodup)
    (hclosed : ∀ t ∈ tasks, ∀ d ∈ t.dependencies, d ∈ tasks.map Task.id)
    (hacyc : ¬ HasCycle tasks) (hfuel : tasks.length < fuel) :
    ∃ order, topologicalSort iterationOrder fuel tasks = some order ∧
      order.length = tasks.length ∧ order ≠ [] := by
  obtain ⟨deg, order, hinv, hrun⟩ := topologicalSort_run iterationOrder fuel tasks hiter hfuel
  have hall := kahnInv_final_complete tasks deg order hinv hclosed hacyc
  have hle : tasks.length ≤ order.length := by
    have := (List.subperm_of_subset huniq hall).length_le
    simpa using this
  have hge := kahnInv_length_le tasks deg [] order hinv
  rw [List.append_nil] at hge
  have hl : order.length = tasks.length := le_antisymm hge hle
  refine ⟨order, by simpa [hl] using hrun, hl, ?_⟩
  intro h0
  rw [h0] at hl
  exact hne (List.length_eq_zero.1 hl.symm)

theorem topologicalSort_acyclic_succeeds_witness :
    ∃ order, topologicalSort List.reverse 4 exampleDeps = some order ∧
      order.length = exampleDeps.length ∧ order ≠ [] :=
  topologicalSort_acyclic_succeeds List.reverse 4 exampleDeps List.reverse_perm
    (by decide) (by decide) (by decide)
    (not_hasCycle_of_rank exampleDeps id (by decide)) (by decide)

/-- C10, as the code behaves: for a non-empty task list with unique ids whose
dependency edges have no cycle, a task that lists a dependency id which no
task of the list has makes every run return the empty sequence (the failure
result) instead of an order. -/
theorem topologicalSort_unknown_dependency_empty (iterationOrder : List Int → List Int)
    (fuel : Nat) (tasks : List Task) (hiter : ∀ ks, (iterationOrder ks).Perm ks)
    (_hne : tasks ≠ []) (_huniq : (tasks.map Task.id).Nodup) (_hacyc : ¬ HasCycle tasks)
    (hunk : ∃ t ∈ tasks, ∃ d ∈ t.dependencies, d ∉ tasks.map Task.id)
    (hfuel : tasks.length < fuel) :
    topologicalSort iterationOrder fuel tasks = some [] := by
  obtain ⟨deg, order, hinv, hrun⟩ := topologicalSort_run iterationOrder fuel tasks hiter hfuel
  rw [hrun]
  by_cases hl : order.length = tasks.length
  · exfalso
    obtain ⟨t, ht, d, hd, hnot⟩ := hunk
    have hperm := kahnInv_final_perm tasks deg order hinv hl
    have hmem : t.id ∈ order := hperm.mem_iff.2 (List.mem_map_of_mem _ ht)
    have hdin := (hinv.valid t.id hmem d ((dependsOn_iff tasks d t.id).2 ⟨t, ht, rfl, hd⟩)).1
    exact hnot (hperm.mem_iff.1 hdin)
  · simp [hl]

theorem topologicalSort_unknown_dependency_empty_witness :
    topologicalSort List.reverse 3 unknownDepTasks = some [] :=
  topologicalSort_unknown_dependency_empty List.reverse 3 unknownDepTasks List.reverse_perm
    (by decide) (by decide)
    (not_hasCycle_of_rank unknownDepTasks (fun x => if x = 2 then 1 else 0) (by decide))
    (by decide) (by decide)

/-- C10, as the claim states it, fails: `unknownDepTasks` is a non-empty list
with unique ids and no cycle in which task `2` lists the id `7` that no task
has, and the run does not return an order that contains every task id (it
returns the empty failure result). -/
theorem topologicalSort_unknown_dependency_counterexample :
    unknownDepTasks ≠ [] ∧ (unknownDepTasks.map Task.id).Nodup ∧
      ¬ HasCycle unknownDepTasks ∧
      (∃ t ∈ unknownDepTasks, ∃ d ∈ t.dependencies, d ∉ unknownDepTasks.map Task.id) ∧
      topologicalSort id 3 unknownDepTasks = some [] ∧
      ¬ ∃ order, topologicalSort id 3 unknownDepTasks = some order ∧
          ∀ t ∈ unknownDepTasks, t.id ∈ order :=
  ⟨by decide, by decide,
    not_hasCycle_of_rank unknownDepTasks (fun x => if x = 2 then 1 else 0) (by decide),
    by decide, by decide, by decide⟩

/-! ## Further claims on knapsackSchedule -/

theorem totalDuration_zero (s : List Task) (hd : ∀ x ∈ s, 0 ≤ x.duration)
    (h : totalDuration s ≤ 0) : ∀ x ∈ s, x.duration = 0 := by
  induction s with
  | nil => intro x hx; simp at hx
  | cons a s ih =>
    have h1 := hd a (List.mem_cons_self _ _)
    have h2 := totalDuration_nonneg s (fun x hx => hd x (List.mem_cons_of_mem _ hx))
    simp only [totalDuration, List.map_cons, List.sum_cons] at h h2
    intro x hx
    rcases List.mem_cons.1 hx with rfl | hx
    · omega
    · exact ih (fun x hx => hd x (List.mem_cons_of_mem _ hx))
        (by simp only [totalDuration]; omega) x hx

theorem totalPriority_nonneg (l : List Task) (hp : ∀ x ∈ l, 0 ≤ x.priority) :
    0 ≤ totalPriority l := by
  induction l with
  | nil => simp [totalPriority]
  | cons a l ih =>
    have h1 := hp a (List.mem_cons_self _ _)
    have h2 := ih (fun x hx => hp x (List.mem_cons_of_mem _ hx))
    simp only [totalPriority, List.map_cons, List.sum_cons] at h2 ⊢
    omega

/-- With budget `0` the table adds up the priorities of the tasks of duration
`0`, as long as their sum is a value of `int`. -/
theorem bestValue_zero (l : List Task) (hd : ∀ x ∈ l, 0 ≤ x.duration)
    (hp : ∀ x ∈ l, 0 ≤ x.priority)
    (hsum : totalPriority (l.filter (fun x => decide (x.duration = 0))) < 2147483648) :
    bestValue l 0 = totalPriority (l.filter (fun x => decide (x.duration = 0))) := by
  induction l with
  | nil => simp [bestValue, totalPriority]
  | cons task rest ih =>
    have hprest : ∀ x ∈ rest, 0 ≤ x.priority := fun x hx => hp x (List.mem_cons_of_mem _ hx)
    have h1 := hd task (List.mem_cons_self _ _)
    have h2 := hp task (List.mem_cons_self _ _)
    have hnn := totalPriority_nonneg (rest.filter (fun x => decide (x.duration = 0)))
      (fun x hx => hprest x (List.mem_of_mem_filter hx))
    by_cases hz : task.duration = 0
    · rw [List.filter_cons_of_pos (by simpa using hz)] at hsum ⊢
      simp only [totalPriority, List.map_cons, List.sum_cons] at hsum hnn ⊢
      have ih1 := ih (fun x hx => hd x (List.mem_cons_of_mem _ hx)) hprest
        (by simp only [totalPriority]; omega)
      simp only [totalPriority] at ih1
      rw [bestValue, if_neg (by omega), hz, sub_zero, ih1,
        addInt_of_isInt32 _ _ (by unfold IsInt32; omega)]
      exact max_eq_right (by omega)
    · rw [List.filter_cons_of_neg (by simpa using hz)] at hsum ⊢
      rw [bestValue, if_pos (by omega),
        ih (fun x hx => hd x (List.mem_cons_of_mem _ hx)) hprest hsum]

/-- C14, as the code behaves: zero-budget edge case of `knapsackSchedule` when
the sums of line 48 stay inside `int`.  For tasks with non-negative durations
and priorities in which the priorities of the tasks of duration `0` sum to at
most `2147483647`, and `maxTime = 0`, only tasks of duration `0` are selected
and the returned value is the sum of the priorities of all tasks of duration
`0`; when no task has duration `0` (or the list is empty) the selection is
empty and the value is `0`. -/
theorem knapsackSchedule_zero_budget (tasks : List Task)
    (hd : ∀ x ∈ tasks, 0 ≤ x.duration) (hp : ∀ x ∈ tasks, 0 ≤ x.priority)
    (hsum : totalPriority (tasks.filter (fun x => decide (x.duration = 0))) < 2147483648) :
    ∃ v sel, knapsackSchedule tasks 0 [] = some (v, sel) ∧
      (∀ x ∈ sel, x ∈ tasks ∧ x.duration = 0) ∧
      v = totalPriority (tasks.filter (fun x => decide (x.duration = 0))) ∧
      ((∀ x ∈ tasks, x.duration ≠ 0) → sel = [] ∧ v = 0) := by
  obtain ⟨chosen, hk, _, hdu, hsub⟩ := knapsackSchedule_spec tasks 0 [] hd (le_refl _)
  have hmem : ∀ x ∈ chosen, x ∈ tasks := fun x hx => List.mem_reverse.1 (hsub.subset hx)
  have hzero := totalDuration_zero chosen (fun x hx => hd x (hmem x hx)) hdu
  have hfil : totalPriority (tasks.reverse.filter (fun x => decide (x.duration = 0)))
      = totalPriority (tasks.filter (fun x => decide (x.duration = 0))) := by
    rw [List.filter_reverse]
    exact totalPriority_perm (List.reverse_perm _)
  have hval : bestValue tasks.reverse 0
      = totalPriority (tasks.filter (fun x => decide (x.duration = 0))) := by
    rw [bestValue_zero tasks.reverse (fun x hx => hd x (List.mem_reverse.1 hx))
      (fun x hx => hp x (List.mem_reverse.1 hx)) (by rw [hfil]; exact hsum), hfil]
  refine ⟨_, _, hk, ?_, hval, ?_⟩
  · intro x hx
    rw [List.nil_append] at hx
    exact ⟨hmem x hx, hzero x hx⟩
  · intro hnone
    have hnil : chosen = [] := by
      cases chosen with
      | nil => rfl
      | cons c cs =>
        exact absurd (hzero c (List.mem_cons_self _ _)) (hnone c (hmem c (List.mem_cons_self _ _)))
    refine ⟨by simp [hnil], ?_⟩
    rw [hval, List.filter_eq_nil_iff.2 (fun x hx => by simpa using hnone x hx)]
    rfl

theorem knapsackSchedule_zero_budget_witness :
    ∃ v sel, knapsackSchedule [⟨1, 0, 3, []⟩, ⟨2, 3, 4, []⟩, ⟨3, 0, 5, []⟩] 0 []
        = some (v, sel) ∧
      (∀ x ∈ sel, x ∈ [(⟨1, 0, 3, []⟩ : Task), ⟨2, 3, 4, []⟩, ⟨3, 0, 5, []⟩] ∧ x.duration = 0) ∧
      v = totalPriority (([⟨1, 0, 3, []⟩, ⟨2, 3, 4, []⟩, ⟨3, 0, 5, []⟩] : List Task).filter
        (fun x => decide (x.duration = 0))) ∧
      ((∀ x ∈ [(⟨1, 0, 3, []⟩ : Task), ⟨2, 3, 4, []⟩, ⟨3, 0, 5, []⟩], x.duration ≠ 0) →
        sel = [] ∧ v = 0) :=
  knapsackSchedule_zero_budget [⟨1, 0, 3, []⟩, ⟨2, 3, 4, []⟩, ⟨3, 0, 5, []⟩]
    (by decide) (by decide) (by decide)

/-- C14, as the claim states it, fails: the three tasks of `freeTasks` have
duration `0` and priority `2^30`; with `maxTime = 0` the sum `2^30 + 2^30` of
line 48 overflows to a negative `int`, so the call returns `2^30` and selects
the first task only, while the priorities of the tasks of duration `0` sum to
`3 * 2^30`. -/
theorem knapsackSchedule_zero_budget_counterexample :
    (∀ x ∈ freeTasks, 0 ≤ x.duration) ∧ (∀ x ∈ freeTasks, 0 ≤ x.priority) ∧
      (∀ x ∈ freeTasks, IsInt32 x.duration ∧ IsInt32 x.priority) ∧
      knapsackSchedule freeTasks 0 [] = some (1073741824, [⟨1, 0, 1073741824, []⟩]) ∧
      totalPriority (freeTasks.filter (fun x => decide (x.duration = 0))) = 3221225472 ∧
      ¬ (1073741824 : Int)
          = totalPriority (freeTasks.filter (fun x => decide (x.duration = 0))) := by
  decide

/-- C16. The example of the specification for the exact optimizer: on the tasks
`(id 1, duration 2, priority 3)`, `(id 2, duration 3, priority 4)`,
`(id 3, duration 4, priority 5)` with `maxTime = 5` and an empty output list,
`knapsackSchedule` returns `7` and `selectedTasks` holds task `2` then task
`1`, of total duration `5`. -/
theorem knapsackSchedule_example :
    knapsackSchedule exampleTasks 5 [] = some (7, [⟨2, 3, 4, []⟩, ⟨1, 2, 3, []⟩]) ∧
      totalDuration [⟨2, 3, 4, []⟩, ⟨1, 2, 3, []⟩] = 5 := by
  decide

/-! ## Index safety of knapsackSchedule -/

/-- The scan splits the scanned list into the tasks it appends (`chosen`) and
the tasks it passes over (`rejected`).  `usedTime` never exceeds the exact sum
`exactUsed` of the durations taken so far (an overflow only lowers it), so a
task passed over does not fit in what the final selection leaves of the
budget; and a task of duration `0` is never passed over. -/
theorem greedyLoop_maximal (maxTime : Int) (sorted : List Task) :
    ∀ (usedTime total exactUsed : Int) (sel : List Task), (∀ x ∈ sorted, 0 ≤ x.duration) →
      usedTime ≤ exactUsed → usedTime ≤ maxTime →
      ∃ chosen rejected, (greedyLoop maxTime sorted usedTime total sel).2 = sel ++ chosen ∧
        (chosen ++ rejected).Perm sorted ∧
        ∀ r ∈ rejected,
          maxTime - (exactUsed + totalDuration chosen) < r.duration ∧ r.duration ≠ 0 := by
  induction sorted with
  | nil =>
    intro usedTime total exactUsed sel _ _ _
    exact ⟨[], [], by simp [greedyLoop], by simp, by simp⟩
  | cons task rest ih =>
    intro usedTime total exactUsed sel hd hle hmax
    have hrest : ∀ x ∈ rest, 0 ≤ x.duration := fun x hx => hd x (List.mem_cons_of_mem _ hx)
    have htd := hd task (List.mem_cons_self _ _)
    have hadd := addInt_le usedTime task.duration htd
    by_cases hfit : addInt usedTime task.duration ≤ maxTime
    · obtain ⟨chosen, rejected, hrun, hperm, hrej⟩ := ih (addInt usedTime task.duration)
        (addInt total task.priority) (exactUsed + task.duration) (sel ++ [task]) hrest
        (by omega) hfit
      refine ⟨task :: chosen, rejected, ?_, ?_, ?_⟩
      · rw [greedyLoop, if_pos hfit, hrun]
        simp
      · simpa using hperm
      · intro r hr
        have := hrej r hr
        simp only [totalDuration, List.map_cons, List.sum_cons] at this ⊢
        exact ⟨by omega, this.2⟩
    · obtain ⟨chosen, rejected, hrun, hperm, hrej⟩ := ih usedTime total exactUsed sel hrest
        hle hmax
      refine ⟨chosen, task :: rejected, ?_, ?_, ?_⟩
      · rw [greedyLoop, if_neg hfit, hrun]
      · exact List.perm_middle.trans (List.Perm.cons _ hperm)
      · intro r hr
        rcases List.mem_cons.1 hr with rfl | hr
        · have hnn : 0 ≤ totalDuration chosen :=
            totalDuration_nonneg chosen (fun x hx =>
              hrest x ((hperm.subset (List.mem_append_left _ hx))))
          refine ⟨by omega, ?_⟩
          intro h0
          rw [h0, addInt_zero] at hfit
          exact hfit hmax
        · exact hrej r hr

/-- C19. The `greedySchedule` selection is maximal: for tasks with non-negative
durations and `maxTime ≥ 0`, whatever arrangement the sort produces, the input
splits (position by position) into `selectedTasks` and the tasks passed over,
and every task passed over has a duration strictly greater than `maxTime`
minus the total duration of the selection; in particular every task of
duration `0` is selected. -/
theorem greedySchedule_maximal (sortByRatio : List Task → List Task) (tasks : List Task)
    (maxTime : Int) (hsort : (sortByRatio tasks).Perm tasks)
    (hd : ∀ x ∈ tasks, 0 ≤ x.duration) (hm : 0 ≤ maxTime) :
    ∃ rejected, ((greedySchedule sortByRatio tasks maxTime []).2 ++ rejected).Perm tasks ∧
      (∀ r ∈ rejected,
        maxTime - totalDuration (greedySchedule sortByRatio tasks maxTime []).2 < r.duration) ∧
      (∀ r ∈ rejected, r.duration ≠ 0) ∧
      ((greedySchedule sortByRatio tasks maxTime []).2.filter
          (fun x => decide (x.duration = 0))).Perm
        (tasks.filter (fun x => decide (x.duration = 0))) := by
  obtain ⟨chosen, rejected, hrun, hperm, hrej⟩ := greedyLoop_maximal maxTime (sortByRatio tasks)
    0 0 0 [] (fun x hx => hd x (hsort.subset hx)) (le_refl _) hm
  have hsel : (greedySchedule sortByRatio tasks maxTime []).2 = chosen := by
    simp [greedySchedule, hrun]
  have hpos : ∀ r ∈ rejected, r.duration ≠ 0 := fun r hr => (hrej r hr).2
  rw [hsel]
  refine ⟨rejected, hperm.trans hsort, ?_, hpos, ?_⟩
  · intro r hr
    have := (hrej r hr).1
    omega
  · have h1 := (hperm.trans hsort).filter (fun x => decide (x.duration = 0))
    have h2 : rejected.filter (fun x => decide (x.duration = 0)) = [] :=
      List.filter_eq_nil_iff.2 (fun x hx => by simpa using hpos x hx)
    rwa [List.filter_append, h2, List.append_nil] at h1

theorem greedySchedule_maximal_witness :
    ∃ rejected,
      ((greedySchedule exactRatioSort exampleTasks 5 []).2 ++ rejected).Perm exampleTasks ∧
      (∀ r ∈ rejected,
        5 - totalDuration (greedySchedule exactRatioSort exampleTasks 5 []).2 < r.duration) ∧
      (∀ r ∈ rejected, r.duration ≠ 0) ∧
      ((greedySchedule exactRatioSort exampleTasks 5 []).2.filter
          (fun x => decide (x.duration = 0))).Perm
        (exampleTasks.filter (fun x => decide (x.duration = 0))) :=
  greedySchedule_maximal exactRatioSort exampleTasks 5
    (List.perm_insertionSort ratioGe exampleTasks) (by decide) (by decide)

/-! ## Order of the greedy selection -/

theorem greedyLoop_sublist (maxTime : Int) (sorted : List Task) :
    ∀ (usedTime total : Int) (sel : List Task),
      ∃ chosen, (greedyLoop maxTime sorted usedTime total sel).2 = sel ++ chosen ∧
        chosen.Sublist sorted := by
  induction sorted with
  | nil => intro usedTime total sel; exact ⟨[], by simp [greedyLoop], by simp⟩
  | cons task rest ih =>
    intro usedTime total sel
    by_cases hfit : addInt usedTime task.duration ≤ maxTime
    · obtain ⟨chosen, hrun, hsub⟩ := ih (addInt usedTime task.duration)
        (addInt total task.priority) (sel ++ [task])
      exact ⟨task :: chosen, by rw [greedyLoop, if_pos hfit, hrun]; simp, hsub.cons₂ _⟩
    · obtain ⟨chosen, hrun, hsub⟩ := ih usedTime total sel
      exact ⟨chosen, by rw [greedyLoop, if_neg hfit, hrun], hsub.cons _⟩

/-- The only arrangement of the example tasks that is sorted for the comparator
is the input order: their double quotients `1.5 > 1.33.. > 1.25` differ. -/
theorem sortedByRatio_example (l : List Task) (hperm : l.Perm exampleTasks)
    (hsorted : SortedByRatio l) : l = exampleTasks := by
  have hlen : l.length = 3 := hperm.length_eq
  have hnd : l.Nodup := hperm.nodup_iff.2 (by decide)
  match l, hlen with
  | [x, y, z], _ =>
    have hx : x ∈ exampleTasks := hperm.subset (by simp)
    have hy : y ∈ exampleTasks := hperm.subset (by simp)
    have hz : z ∈ exampleTasks := hperm.subset (by simp)
    have key : ∀ x ∈ exampleTasks, ∀ y ∈ exampleTasks, ∀ z ∈ exampleTasks,
        [x, y, z].Nodup → SortedByRatio [x, y, z] → [x, y, z] = exampleTasks := by
      decide
    exact key x hx y hy z hz hnd hsorted

/-- C13, as the code behaves: for tasks with positive durations and
non-negative priorities, whenever the sort leaves the working copy sorted for
its comparator, the tasks of `selectedTasks` appear in non-increasing order of
the quotient `priority / duration` computed in `double`: for `a` before `b` in
the output the double quotient of `b` is not greater than that of `a`.  On the
example of the specification (durations `2, 3, 4`, priorities `3, 4, 5`,
`maxTime = 5`) the output is task `1` then task `2`, with total `7`. -/
theorem greedySchedule_double_ratio_order (sortByRatio : List Task → List Task)
    (tasks : List Task) (maxTime : Int)
    (hsorted : SortedByRatio (sortByRatio tasks))
    (_hpos : ∀ x ∈ tasks, 0 < x.duration) (_hnn : ∀ x ∈ tasks, 0 ≤ x.priority)
    (hexPerm : (sortByRatio exampleTasks).Perm exampleTasks)
    (hexSorted : SortedByRatio (sortByRatio exampleTasks)) :
    SortedByRatio (greedySchedule sortByRatio tasks maxTime []).2 ∧
      greedySchedule sortByRatio exampleTasks 5 []
        = (7, [⟨1, 2, 3, []⟩, ⟨2, 3, 4, []⟩]) := by
  constructor
  · obtain ⟨chosen, hrun, hsub⟩ := greedyLoop_sublist maxTime (sortByRatio tasks) 0 0 []
    unfold greedySchedule
    rw [hrun, List.nil_append]
    exact List.Pairwise.sublist hsub hsorted
  · unfold greedySchedule
    rw [sortedByRatio_example _ hexPerm hexSorted]
    decide

theorem greedySchedule_double_ratio_order_witness :
    SortedByRatio (greedySchedule doubleRatioSort roundingTasks 536870913 []).2 ∧
      greedySchedule doubleRatioSort exampleTasks 5 []
        = (7, [⟨1, 2, 3, []⟩, ⟨2, 3, 4, []⟩]) :=
  greedySchedule_double_ratio_order doubleRatioSort roundingTasks 536870913
    (by decide) (by decide) (by decide) (by decide) (by decide)

/-- C13, as the claim states it, fails: the two tasks of `roundingTasks` have
positive durations and non-negative priorities, their exact ratios are
`(2^28 - 1) / 2^28 < 2^28 / (2^28 + 1)` and their double quotients are equal,
so the comparator of the sort moves neither in front of the other; with
`maxTime = 2^29 + 1` both are selected, the first before the second, although
the cross products say that the first has the smaller ratio. -/
theorem greedySchedule_ratio_order_counterexample :
    (∀ x ∈ roundingTasks, 0 < x.duration) ∧ (∀ x ∈ roundingTasks, 0 ≤ x.priority) ∧
      doubleQuot 268435455 268435456 = doubleQuot 268435456 268435457 ∧
      SortedByRatio roundingTasks ∧ doubleRatioSort roundingTasks = roundingTasks ∧
      (greedySchedule doubleRatioSort roundingTasks 536870913 []).2
        = [⟨1, 268435456, 268435455, []⟩, ⟨2, 268435457, 268435456, []⟩] ∧
      ¬ (greedySchedule doubleRatioSort roundingTasks 536870913 []).2.Pairwise
          (fun a b => a.priority * b.duration ≥ b.priority * a.duration) := by
  decide

/-! ## Further claims on topologicalSort -/

theorem kahnLoop_fuel_mono (adj : Int → List Int) :
    ∀ (fuel : Nat) (deg : Int → Int) (q order r : List Int),
      kahnLoop adj fuel deg q order = some r →
      ∀ k, kahnLoop adj (fuel + k) deg q order = some r := by
  intro fuel
  induction fuel with
  | zero => intro deg q order r h; simp [kahnLoop] at h
  | succ fuel ih =>
    intro deg q order r h k
    rw [show fuel + 1 + k = (fuel + k) + 1 by omega]
    cases q with
    | nil => simpa [kahnLoop] using h
    | cons curr q =>
      rw [kahnLoop] at h ⊢
      exact ih _ _ _ _ h k

theorem topologicalSort_nil (iterationOrder : List Int → List Int) (fuel : Nat)
    (hiter : ∀ ks, (iterationOrder ks).Perm ks) (hfuel : 0 < fuel) :
    topologicalSort iterationOrder fuel [] = some [] := by
  obtain ⟨deg, order, hinv, hrun⟩ := topologicalSort_run iterationOrder fuel [] hiter
    (by simpa using hfuel)
  rw [hrun]
  by_cases hl : order.length = ([] : List Task).length
  · simp only [hl, ne_eq, not_true_eq_false, if_false]
    exact congrArg some (List.length_eq_zero.1 (by simpa using hl))
  · simp [hl]

/-- Two final states of the while loop hold the same ids: an id is output
exactly when it is a task id and all its dependencies are output. -/
theorem kahnInv_final_subset (tasks : List Task) (deg1 deg2 : Int → Int) (o1 o2 : List Int)
    (h1 : KahnInv tasks deg1 [] o1) (h2 : KahnInv tasks deg2 [] o2) : o1 ⊆ o2 := by
  have key : ∀ n x, x ∈ o1 → List.indexOf x o1 < n → x ∈ o2 := by
    intro n
    induction n with
    | zero => intro x _ h; omega
    | succ n ih =>
      intro x hx hlt
      rw [kahnInv_final_mem tasks deg2 o2 h2]
      refine ⟨((kahnInv_final_mem tasks deg1 o1 h1 x).1 hx).1, ?_⟩
      intro d hd
      obtain ⟨hd1, hd2⟩ := h1.valid x hx d hd
      exact ih d hd1 (by omega)
  exact fun x hx => key (List.indexOf x o1 + 1) x hx (by omega)

theorem kahnInv_final_perm_of_two (tasks : List Task) (deg1 deg2 : Int → Int)
    (o1 o2 : List Int) (h1 : KahnInv tasks deg1 [] o1) (h2 : KahnInv tasks deg2 [] o2) :
    o1.Perm o2 := by
  have hn1 : o1.Nodup := by simpa using h1.nodup
  have hn2 : o2.Nodup := by simpa using h2.nodup
  exact List.Subperm.antisymm
    (List.subperm_of_subset hn1 (kahnInv_final_subset tasks deg1 deg2 o1 o2 h1 h2))
    (List.subperm_of_subset hn2 (kahnInv_final_subset tasks deg2 deg1 o2 o1 h2 h1))

/-- C15, as the code behaves: the value `topologicalSort` returns for a task
list that contains a cycle is the empty sequence, which is also the value it
returns for the empty task list; and for `n > 0` the returned sequence is empty
(failure) or has length exactly `n`, never a partial order. -/
theorem topologicalSort_failure_result (iterationOrder : List Int → List Int)
    (fuel : Nat) (tasks : List Task) (hiter : ∀ ks, (iterationOrder ks).Perm ks)
    (hfuel : tasks.length < fuel) :
    (HasCycle tasks →
      topologicalSort iterationOrder fuel tasks = some [] ∧
      topologicalSort iterationOrder fuel tasks = topologicalSort iterationOrder fuel []) ∧
    ∃ order, topologicalSort iterationOrder fuel tasks = some order ∧
      (0 < tasks.length → order = [] ∨ order.length = tasks.length) := by
  obtain ⟨deg, order, hinv, hrun⟩ := topologicalSort_run iterationOrder fuel tasks hiter hfuel
  have hnil := topologicalSort_nil iterationOrder fuel hiter (by omega)
  constructor
  · intro hcyc
    have hempty : topologicalSort iterationOrder fuel tasks = some [] := by
      rw [hrun]
      by_cases hl : order.length = tasks.length
      · exfalso
        obtain ⟨x, hx⟩ := hcyc
        have hmem : x ∈ order :=
          (kahnInv_final_perm tasks deg order hinv hl).mem_iff.2
            (transGen_dependsOn_target tasks x x hx)
        exact lt_irrefl _ (kahnInv_transGen tasks deg order hinv x x hx hmem).2
      · simp [hl]
    exact ⟨hempty, by rw [hempty, hnil]⟩
  · refine ⟨_, hrun, ?_⟩
    intro _
    by_cases hl : order.length = tasks.length
    · right
      simp [hl]
    · left
      simp [hl]

theorem topologicalSort_failure_result_witness :
    (HasCycle cycleTasks →
      topologicalSort List.reverse 3 cycleTasks = some [] ∧
      topologicalSort List.reverse 3 cycleTasks = topologicalSort List.reverse 3 []) ∧
    ∃ order, topologicalSort List.reverse 3 cycleTasks = some order ∧
      (0 < cycleTasks.length → order = [] ∨ order.length = cycleTasks.length) :=
  topologicalSort_failure_result List.reverse 3 cycleTasks List.reverse_perm (by decide)

/-- C15, as the claim states it, fails: `cycleTasks` contains a cycle, and the
value returned for it is the value returned for the empty task list. -/
theorem topologicalSort_failure_counterexample :
    HasCycle cycleTasks ∧
      topologicalSort id 3 cycleTasks = some [] ∧
      topologicalSort id 3 [] = some [] ∧
      ¬ (topologicalSort id 3 cycleTasks ≠ topologicalSort id 3 []) :=
  ⟨⟨1, Relation.TransGen.tail (Relation.TransGen.single (by decide : DependsOn cycleTasks 1 2))
      (by decide : DependsOn cycleTasks 2 1)⟩,
    by decide, by decide, by decide⟩

/-- C17. The example of the specification for the linearizer: on the tasks
`1` (no dependency), `2` (depends on `1`), `3` (depends on `1` and `2`)
`topologicalSort` returns `[1, 2, 3]`, for every iteration order of the
in-degree map. -/
theorem topologicalSort_example (iterationOrder : List Int → List Int) (fuel : Nat)
    (hiter : ∀ ks, (iterationOrder ks).Perm ks) (hfuel : exampleDeps.length < fuel) :
    topologicalSort iterationOrder fuel exampleDeps = some [1, 2, 3] := by
  have hkeys : (buildGraph exampleDeps).2.keys = [1, 2, 3] := by decide
  have hq : (iterationOrder (buildGraph exampleDeps).2.keys).filter
      (fun k => decide ((buildGraph exampleDeps).2.val k = 0)) = [1] := by
    have hp := (hiter (buildGraph exampleDeps).2.keys).filter
      (fun k => decide ((buildGraph exampleDeps).2.val k = 0))
    have hf : (buildGraph exampleDeps).2.keys.filter
        (fun k => decide ((buildGraph exampleDeps).2.val k = 0)) = [1] := by
      rw [hkeys]
      decide
    rw [hf] at hp
    exact List.perm_singleton.1 hp
  have h4 : kahnLoop (buildGraph exampleDeps).1 4 (buildGraph exampleDeps).2.val [1] []
      = some [1, 2, 3] := by decide
  have hlen : exampleDeps.length = 3 := rfl
  have hmono := kahnLoop_fuel_mono _ 4 _ _ _ _ h4 (fuel - 4)
  rw [show 4 + (fuel - 4) = fuel by omega] at hmono
  unfold topologicalSort
  rw [hq, hmono]
  rfl

theorem topologicalSort_example_witness :
    topologicalSort List.reverse 4 exampleDeps = some [1, 2, 3] :=
  topologicalSort_example List.reverse 4 List.reverse_perm (by decide)

/-- C20. Success of `topologicalSort` does not depend on the order of the ready
queue: for tasks with unique ids and any two iteration orders of the in-degree
map, the two runs either both return the empty sequence or both return an
order of length `n`, and the two orders hold the same ids. -/
theorem topologicalSort_order_independent (iterationOrder1 iterationOrder2 : List Int → List Int)
    (fuel1 fuel2 : Nat) (tasks : List Task)
    (hiter1 : ∀ ks, (iterationOrder1 ks).Perm ks) (hiter2 : ∀ ks, (iterationOrder2 ks).Perm ks)
    (_huniq : (tasks.map Task.id).Nodup)
    (hfuel1 : tasks.length < fuel1) (hfuel2 : tasks.length < fuel2) :
    ∃ order1 order2, topologicalSort iterationOrder1 fuel1 tasks = some order1 ∧
      topologicalSort iterationOrder2 fuel2 tasks = some order2 ∧
      ((order1 = [] ∧ order2 = []) ∨
        (order1.length = tasks.length ∧ order2.length = tasks.length ∧
          order1.Perm order2)) := by
  obtain ⟨deg1, o1, hinv1, hrun1⟩ := topologicalSort_run iterationOrder1 fuel1 tasks hiter1 hfuel1
  obtain ⟨deg2, o2, hinv2, hrun2⟩ := topologicalSort_run iterationOrder2 fuel2 tasks hiter2 hfuel2
  have hperm := kahnInv_final_perm_of_two tasks deg1 deg2 o1 o2 hinv1 hinv2
  have hlen : o1.length = o2.length := hperm.length_eq
  refine ⟨_, _, hrun1, hrun2, ?_⟩
  by_cases hl : o1.length = tasks.length
  · right
    have hl2 : o2.length = tasks.length := by omega
    simp only [hl, hl2, ne_eq, not_true_eq_false, if_false]
    exact ⟨trivial, trivial, hperm⟩
  · left
    have hl2 : ¬ o2.length = tasks.length := by omega
    simp [hl, hl2]

theorem topologicalSort_order_independent_witness :
    ∃ order1 order2, topologicalSort id 4 exampleDeps = some order1 ∧
      topologicalSort List.reverse 5 exampleDeps = some order2 ∧
      ((order1 = [] ∧ order2 = []) ∨
        (order1.length = exampleDeps.length ∧ order2.length = exampleDeps.length ∧
          order1.Perm order2)) :=
  topologicalSort_order_independent id List.reverse 4 5 exampleDeps (fun ks => List.Perm.refl ks)
    List.reverse_perm (by decide) (by decide) (by decide)

end TaskScheduler
